import Mathlib

/-!
Verification of the trading-sbt backtest server core.

The definitions below are a shallow embedding of the TypeScript sources:

* src/src/utils.ts — class BacktestBroker (the copy carrying both the
  tick-level and the bar-level matching passes, lines 106 to 638);
* src/src/server/handlers/unsubscribe.handler.ts — class ClientState
  (subscriptions, processOrderUpdate, processMarketData);
* src/unnamed/part_014 — the replay handler loop (order phase and market
  phase of each batch);
* src/unnamed/part_015 — class BacktestMetrics;
* src/src/shared/utils.ts — toEpoch with the days unit.

JavaScript numbers are modelled by the rationals, Date values by integer
epoch milliseconds.  JS Map objects are modelled by insertion-ordered
association lists with the JS semantics of get, set and delete.  Functions
imported from the external package trading-core (acceptOrder, rejectOrder,
fillOrder, processFill, appraisePosition, the running estimators) are not
part of this repository; each of their models below carries a doc comment
starting with the words Modelled from the spec.
-/

namespace TradingSbt

/-! ## JS Map model: insertion-ordered association lists -/

/-- JS Map.get: the value of the first (and, with unique keys, only)
entry with the given key. -/
def mapGet (m : List (String × β)) (k : String) : Option β :=
  (m.find? (fun e => e.1 = k)).map (fun e => e.2)

/-- JS Map.set: replace the value in place when the key is present,
append a new entry otherwise. -/
def mapSet (m : List (String × β)) (k : String) (v : β) : List (String × β) :=
  if (m.find? (fun e => e.1 = k)).isSome then
    m.map (fun e => if e.1 = k then (k, v) else e)
  else
    m ++ [(k, v)]

/-- JS Map.delete: remove every entry with the given key (with unique
keys, at most one). -/
def mapDelete (m : List (String × β)) (k : String) : List (String × β) :=
  m.filter (fun e => ¬ (e.1 = k))

/-- Keys of an association list are pairwise distinct (a JS Map always
satisfies this; the operations above preserve it). -/
def KeysNodup (m : List (String × β)) : Prop :=
  (m.map (fun e => e.1)).Nodup

/-! ## Data model (src/src/utils.ts and trading-core types) -/

inductive OrderType
  | MARKET
  | LIMIT
  | STOP
  | STOP_LIMIT
deriving DecidableEq

inductive Side
  | BUY
  | SELL
deriving DecidableEq

inductive Effect
  | OPEN_LONG
  | CLOSE_LONG
  | OPEN_SHORT
  | CLOSE_SHORT
deriving DecidableEq

inductive OrderStatus
  | OPEN
  | PARTFILLED
  | FILLED
  | CANCELLED
  | REJECTED
deriving DecidableEq

/-- A client-supplied order.  Optional numeric fields model the TS
optional number fields; JS truthiness treats both absence and 0 as
false. -/
structure Order where
  id : String
  symbol : String
  side : Side
  effect : Effect
  type : OrderType
  quantity : ℚ
  price : Option ℚ
  stopPrice : Option ℚ
deriving DecidableEq

/-- Broker-owned order state (superset of Order). -/
structure OrderState extends Order where
  filledQuantity : ℚ
  remainingQuantity : ℚ
  status : OrderStatus
  modified : ℤ
deriving DecidableEq

/-- Amend request: id plus optional new price, stopPrice, quantity. -/
structure PartialOrder where
  id : String
  quantity : Option ℚ
  price : Option ℚ
  stopPrice : Option ℚ
deriving DecidableEq

/-- A fill produced by the matching pass.  The effect field is carried so
that the position update can dispatch on it (Modelled from the spec:
trading-core Fill is external; the spec step 6 updates the position in
FIFO order using the effect of the filled order). -/
structure Fill where
  id : String
  orderId : String
  symbol : String
  side : Side
  effect : Effect
  price : ℚ
  quantity : ℚ
  commission : ℚ
  created : ℤ
deriving DecidableEq

/-- One FIFO lot of an open long or short position. -/
structure Lot where
  quantity : ℚ
  price : ℚ
deriving DecidableEq

structure Position where
  cash : ℚ
  long : List (String × List Lot)
  short : List (String × List Lot)
  totalCommission : ℚ
  realisedPnL : ℚ
deriving DecidableEq

/-! ## Backtest configuration (src/src/schema/backtest-config.schema.ts) -/

structure PriceSlippageConfig where
  fixed : Option ℚ
  marketImpact : Option ℚ
deriving DecidableEq

structure VolumeSlippageConfig where
  maxParticipation : Option ℚ
  allowPartialFills : Option Bool
deriving DecidableEq

structure SlippageConfig where
  price : Option PriceSlippageConfig
  volume : Option VolumeSlippageConfig
deriving DecidableEq

structure CommissionConfig where
  rate : Option ℚ
  perTrade : Option ℚ
  minimum : Option ℚ
  maximum : Option ℚ
deriving DecidableEq

structure BacktestConfig where
  initialCash : ℚ
  riskFree : Option ℚ
  commission : Option CommissionConfig
  slippage : Option SlippageConfig
deriving DecidableEq

/-- JS truthiness of an optional number: absent and 0 are both falsy. -/
def truthyQ (o : Option ℚ) : Bool :=
  match o with
  | none => false
  | some x => decide (x ≠ 0)

/-- JS truthiness of an optional boolean: absent and false are falsy. -/
def truthyB (o : Option Bool) : Bool :=
  match o with
  | none => false
  | some b => b

/-! ## Market data rows -/

/-- A top-of-book quote row. -/
structure MarketQuote where
  symbol : String
  price : ℚ
  bid : Option ℚ
  ask : Option ℚ
  volume : Option ℚ
deriving DecidableEq

/-- An OHLC bar row (interface CandleStick in src/src/utils.ts).  The TS
field named open is rendered openPrice since open is a Lean keyword. -/
structure CandleStick where
  symbol : String
  openPrice : ℚ
  high : ℚ
  low : ℚ
  close : ℚ
  volume : ℚ
deriving DecidableEq

/-- A raw replay row as duck-typed in processOpenOrders: quote fields plus
optional OHLC fields; the batch is treated as bars when the first row has
an open field. -/
structure Row where
  symbol : String
  price : ℚ
  bid : Option ℚ
  ask : Option ℚ
  volume : Option ℚ
  openPrice : Option ℚ
  high : Option ℚ
  low : Option ℚ
  close : Option ℚ
deriving DecidableEq

/-- View of a raw row as a quote (the tick branch of processOpenOrders
uses the rows as MarketQuote values unchanged). -/
def Row.toQuote (r : Row) : MarketQuote :=
  { symbol := r.symbol, price := r.price, bid := r.bid, ask := r.ask,
    volume := r.volume }

/-- View of a raw row as a bar (the bar branch of processOpenOrders casts
the rows to CandleStick; reading an absent field in JS yields undefined,
rendered here as 0 — well-formed bar batches carry every OHLC field). -/
def Row.toCandle (r : Row) : CandleStick :=
  { symbol := r.symbol, openPrice := r.openPrice.getD 0,
    high := r.high.getD 0, low := r.low.getD 0,
    close := r.close.getD 0, volume := r.volume.getD 0 }

/-! ## trading-core functions (external package, modelled from the spec) -/

/-- Modelled from the spec: trading-core acceptOrder is external.  Per the
data model section, an OrderState is created on submit with status OPEN,
filledQuantity 0 and remainingQuantity equal to quantity. -/
def acceptOrder (o : Order) : OrderState :=
  { toOrder := o, filledQuantity := 0, remainingQuantity := o.quantity,
    status := OrderStatus.OPEN, modified := 0 }

/-- Modelled from the spec: trading-core rejectOrder is external.  Per the
error handling section, order-domain rejections are surfaced as an
OrderState with status REJECTED. -/
def rejectOrder (o : Order) : OrderState :=
  { toOrder := o, filledQuantity := 0, remainingQuantity := o.quantity,
    status := OrderStatus.REJECTED, modified := 0 }

/-- Modelled from the spec: trading-core cancelOrder is external; it marks
the state CANCELLED (terminal). -/
def cancelOrderState (st : OrderState) : OrderState :=
  { st with status := OrderStatus.CANCELLED }

/-- Modelled from the spec: trading-core fillOrder is external.  Per the
matching pass step 6 it adds quant to filledQuantity, subtracts it from
remainingQuantity and moves the status to PARTIAL when remainingQuantity
stays positive and to FILLED otherwise; it also refreshes the modified
time. -/
def fillOrderState (st : OrderState) (quant : ℚ) (created : ℤ) : OrderState :=
  let remaining := st.remainingQuantity - quant
  { st with
    filledQuantity := st.filledQuantity + quant,
    remainingQuantity := remaining,
    status := if remaining > 0 then OrderStatus.PARTFILLED else OrderStatus.FILLED,
    modified := created }

/-- Lookup in a snapshot or lot map, absent entries read as 0 or empty. -/
def lotsOf (m : List (String × List Lot)) (sym : String) : List Lot :=
  (mapGet m sym).getD []

/-- FIFO-consume quant from the head of a lot queue; returns the remaining
queue and the total entry cost of the consumed quantity. -/
def consumeLots (lots : List Lot) (quant : ℚ) : List Lot × ℚ :=
  match lots with
  | [] => ([], 0)
  | lot :: rest =>
    if quant < lot.quantity then
      ({ lot with quantity := lot.quantity - quant } :: rest, quant * lot.price)
    else
      let (rest2, cost) := consumeLots rest (quant - lot.quantity)
      (rest2, lot.quantity * lot.price + cost)

/-- Modelled from the spec: trading-core processFill is external.  Per the
matching pass step 6, OPEN_LONG and OPEN_SHORT append a lot; CLOSE_LONG and
CLOSE_SHORT consume from the head of the opposite-side lot queue in FIFO
order, crediting realised PnL; cash is debited by the commission and moved
by the traded notional. -/
def processFill (pos : Position) (f : Fill) : Position :=
  let notional := f.price * f.quantity
  match f.effect with
  | Effect.OPEN_LONG =>
    { pos with
      cash := pos.cash - notional - f.commission,
      long := mapSet pos.long f.symbol
        (lotsOf pos.long f.symbol ++ [{ quantity := f.quantity, price := f.price }]),
      totalCommission := pos.totalCommission + f.commission }
  | Effect.CLOSE_LONG =>
    let (rest, cost) := consumeLots (lotsOf pos.long f.symbol) f.quantity
    { pos with
      cash := pos.cash + notional - f.commission,
      long := mapSet pos.long f.symbol rest,
      realisedPnL := pos.realisedPnL + (notional - cost),
      totalCommission := pos.totalCommission + f.commission }
  | Effect.OPEN_SHORT =>
    { pos with
      cash := pos.cash + notional - f.commission,
      short := mapSet pos.short f.symbol
        (lotsOf pos.short f.symbol ++ [{ quantity := f.quantity, price := f.price }]),
      totalCommission := pos.totalCommission + f.commission }
  | Effect.CLOSE_SHORT =>
    let (rest, proceeds) := consumeLots (lotsOf pos.short f.symbol) f.quantity
    { pos with
      cash := pos.cash - notional - f.commission,
      short := mapSet pos.short f.symbol rest,
      realisedPnL := pos.realisedPnL + (proceeds - notional),
      totalCommission := pos.totalCommission + f.commission }

/-- Modelled from the spec: trading-core createPosition is external; the
position is seeded with initialCash and empty lot queues. -/
def createPosition (initialCash : ℚ) : Position :=
  { cash := initialCash, long := [], short := [],
    totalCommission := 0, realisedPnL := 0 }

/-! ## BacktestBroker state (src/src/utils.ts, class BacktestBroker) -/

structure Broker where
  config : BacktestConfig
  position : Position
  openOrders : List (String × OrderState)
  openSymbols : List (String × ℤ)
  orderIdCounter : ℕ
  now : ℤ
deriving DecidableEq

/-- Broker constructor. -/
def mkBroker (config : BacktestConfig) : Broker :=
  { config := config, position := createPosition config.initialCash,
    openOrders := [], openSymbols := [], orderIdCounter := 0, now := 0 }

/-- incOpenSymbols: set(symbol, (get(symbol) ?? 0) + 1). -/
def incOpenSymbols (m : List (String × ℤ)) (sym : String) : List (String × ℤ) :=
  mapSet m sym ((mapGet m sym).getD 0 + 1)

/-- decOpenSymbols on the production path (removeOpenSymbols is true when
the DEBUG env flag is unset): count := get(symbol) - 1, written back, and
the entry is deleted when the count reaches 0.  The JS code reads the
entry with a non-null assertion; an absent entry would give NaN there and
is modelled by reading 0 — the reachable-state invariant proved below
shows that branch is never taken. -/
def decOpenSymbols (m : List (String × ℤ)) (sym : String) : List (String × ℤ) :=
  let count := (mapGet m sym).getD 0 - 1
  if count = 0 then mapDelete (mapSet m sym count) sym
  else mapSet m sym count

/-- getOpenSymbols: the symbols whose refcount is positive. -/
def getOpenSymbols (m : List (String × ℤ)) : List String :=
  (m.filter (fun e => 0 < e.2)).map (fun e => e.1)

/-! ## Broker ingress operations -/

/-- One iteration of the submitOrder loop: a duplicate id is rejected
without touching any broker state; otherwise the accepted state enters
openOrders and the symbol refcount is incremented. -/
def submitStep (b : Broker) (o : Order) : Broker × OrderState :=
  if (mapGet b.openOrders o.id).isSome then
    (b, rejectOrder o)
  else
    let st := { acceptOrder o with modified := b.now }
    ({ b with
        openOrders := mapSet b.openOrders o.id st,
        openSymbols := incOpenSymbols b.openSymbols o.symbol }, st)

/-- BacktestBroker.submitOrder. -/
def submitOrder (b : Broker) (orders : List Order) : Broker × List OrderState :=
  orders.foldl
    (fun acc o =>
      let (b', st) := submitStep acc.1 o
      (b', acc.2 ++ [st]))
    (b, [])

/-- The field mutations of one amendOrder iteration: optional new
quantity (recomputing remainingQuantity), optional new price and
stopPrice, and the refreshed modified time. -/
def amendState (st0 : OrderState) (u : PartialOrder) (now : ℤ) : OrderState :=
  let st1 :=
    match u.quantity with
    | some q => { st0 with quantity := q, remainingQuantity := q - st0.filledQuantity }
    | none => st0
  let st2 :=
    match u.price with
    | some p => { st1 with price := some p }
    | none => st1
  let st3 :=
    match u.stopPrice with
    | some sp => { st2 with stopPrice := some sp }
    | none => st2
  { st3 with modified := now }

/-- One iteration of the amendOrder loop.  The JS code mutates the state
object held by the map in place; the functional model writes the amended
state back with set, or deletes it when the remaining quantity went
negative. -/
def amendStep (b : Broker) (u : PartialOrder) : Broker × Option OrderState :=
  match mapGet b.openOrders u.id with
  | none => (b, none)
  | some st0 =>
    let st4 := amendState st0 u b.now
    if st4.remainingQuantity < 0 then
      let st5 := cancelOrderState st4
      ({ b with
          openOrders := mapDelete b.openOrders u.id,
          openSymbols := decOpenSymbols b.openSymbols st5.symbol }, some st5)
    else
      ({ b with openOrders := mapSet b.openOrders u.id st4 }, some st4)

/-- BacktestBroker.amendOrder. -/
def amendOrder (b : Broker) (updates : List PartialOrder) : Broker × List OrderState :=
  updates.foldl
    (fun acc u =>
      ((amendStep acc.1 u).1,
        match (amendStep acc.1 u).2 with
        | some st => acc.2 ++ [st]
        | none => acc.2))
    (b, [])

/-- One iteration of the cancelOrder loop. -/
def cancelStep (b : Broker) (id : String) : Broker × Option OrderState :=
  match mapGet b.openOrders id with
  | none => (b, none)
  | some st0 =>
    let st := { cancelOrderState st0 with modified := b.now }
    ({ b with
        openOrders := mapDelete b.openOrders id,
        openSymbols := decOpenSymbols b.openSymbols st.symbol }, some st)

/-- BacktestBroker.cancelOrder. -/
def cancelOrders (b : Broker) (ids : List String) : Broker × List OrderState :=
  ids.foldl
    (fun acc id =>
      ((cancelStep acc.1 id).1,
        match (cancelStep acc.1 id).2 with
        | some st => acc.2 ++ [st]
        | none => acc.2))
    (b, [])

/-- BacktestBroker.cancelAllOrders: mark every open state CANCELLED and
clear both maps. -/
def cancelAllOrders (b : Broker) : Broker × List OrderState :=
  if b.openOrders.length = 0 then (b, [])
  else
    ({ b with openOrders := [], openSymbols := [] },
     b.openOrders.map (fun e => { cancelOrderState e.2 with modified := b.now }))

/-! ## Matching helpers (src/src/utils.ts) -/

/-- getMatchPriceTick: base match price of a MARKET or LIMIT order against
a top-of-book quote, none when there is no match.  The JS guard on
order.price is a truthiness test, so a LIMIT order with price 0 or with no
price never matches. -/
def getMatchPriceTick (o : OrderState) (q : MarketQuote) : Option ℚ :=
  match o.type with
  | OrderType.MARKET =>
    some (if o.side = Side.BUY then q.ask.getD q.price else q.bid.getD q.price)
  | OrderType.LIMIT =>
    if ¬ truthyQ o.price then none
    else
      let p := o.price.getD 0
      if o.side = Side.BUY then
        let effectiveAsk := q.ask.getD q.price
        if effectiveAsk ≤ p then some effectiveAsk else none
      else
        let effectiveBid := q.bid.getD q.price
        if effectiveBid ≥ p then some effectiveBid else none
  | _ => none

/-- getMatchPriceBar: base match price of a MARKET or LIMIT order against
an OHLC bar, none when there is no match.  MARKET executes at the bar
open; LIMIT BUY triggers when low touched the limit and fills at the
better of limit and open; LIMIT SELL symmetrically. -/
def getMatchPriceBar (o : OrderState) (c : CandleStick) : Option ℚ :=
  match o.type with
  | OrderType.MARKET => some c.openPrice
  | OrderType.LIMIT =>
    if ¬ truthyQ o.price then none
    else
      let p := o.price.getD 0
      if o.side = Side.BUY then
        if c.low ≤ p then some (min p c.openPrice) else none
      else
        if c.high ≥ p then some (max p c.openPrice) else none
  | _ => none

/-- getFillQuantity: maximum fillable quantity under the volume-slippage
participation cap.  Both the quote volume and maxParticipation are JS
truthiness tests, so a volume of 0 or a maxParticipation of 0 disables the
cap and the whole remaining quantity is returned. -/
def getFillQuantity (cfg : BacktestConfig) (st : OrderState) (vol : Option ℚ) : ℚ :=
  match cfg.slippage.bind (fun s => s.volume) with
  | none => st.remainingQuantity
  | some vc =>
    if ¬ truthyQ vol then st.remainingQuantity
    else if truthyQ vc.maxParticipation then
      let maxQty := vol.getD 0 * vc.maxParticipation.getD 0
      if st.remainingQuantity > maxQty then
        if truthyB vc.allowPartialFills then maxQty else 0
      else st.remainingQuantity
    else st.remainingQuantity

/-- getPriceSlippage: additive basis-point shift plus market impact,
positive for BUY and negative for SELL. -/
def getPriceSlippage (cfg : BacktestConfig) (price quant : ℚ) (side : Side)
    (barVolume : Option ℚ) : ℚ :=
  match cfg.slippage.bind (fun s => s.price) with
  | none => 0
  | some pc =>
    let fixedPart := if truthyQ pc.fixed then pc.fixed.getD 0 / 10000 * price else 0
    let impactPart :=
      if truthyQ pc.marketImpact ∧ truthyQ barVolume ∧ barVolume.getD 0 > 0 then
        quant / barVolume.getD 0 * pc.marketImpact.getD 0 * price
      else 0
    let total := fixedPart + impactPart
    if side = Side.BUY then total else -total

/-- getCommission: rate times notional plus per-trade fee, clamped to the
configured minimum and maximum (each only when truthy). -/
def getCommission (cfg : BacktestConfig) (price quant : ℚ) : ℚ :=
  match cfg.commission with
  | none => 0
  | some cc =>
    let notional := price * quant
    let c0 := (if truthyQ cc.rate then notional * cc.rate.getD 0 else 0) +
      (if truthyQ cc.perTrade then cc.perTrade.getD 0 else 0)
    let c1 := if truthyQ cc.minimum ∧ c0 < cc.minimum.getD 0 then cc.minimum.getD 0 else c0
    if truthyQ cc.maximum ∧ c1 > cc.maximum.getD 0 then cc.maximum.getD 0 else c1

/-- fillWithSlippage: apply price slippage and commission, build the fill,
update the order state and the position.  Returns the fill, the updated
state, the updated position and the next fill-id counter. -/
def fillWithSlippage (cfg : BacktestConfig) (pos : Position) (counter : ℕ)
    (now : ℤ) (st : OrderState) (price quant : ℚ) (marketVolume : Option ℚ) :
    Fill × OrderState × Position × ℕ :=
  let slippage := getPriceSlippage cfg price quant st.side marketVolume
  let adjFillPrice := price + slippage
  let commission := getCommission cfg adjFillPrice quant
  let fill : Fill :=
    { id := "fill_".append (toString counter), orderId := st.id,
      symbol := st.symbol, side := st.side, effect := st.effect,
      price := adjFillPrice, quantity := quant, commission := commission,
      created := now }
  let st2 := fillOrderState st quant now
  (fill, st2, processFill pos fill, counter + 1)

/-! ## Matching passes (src/src/utils.ts) -/

/-- The in-place conversion of a triggered stop order: STOP becomes
MARKET, STOP_LIMIT becomes LIMIT, and the modified time is refreshed. -/
def convState (now : ℤ) (st : OrderState) : OrderState :=
  { st with
    type := if st.type = OrderType.STOP then OrderType.MARKET else OrderType.LIMIT,
    modified := now }

/-- One iteration of the stop-conversion loop shared by the tick and bar
passes: given the trigger decision for the quote or bar of the symbol of
the order, convert STOP to MARKET and STOP_LIMIT to LIMIT in place and
record a snapshot of the converted state. -/
def stopStep (now : ℤ) (findTrigger : OrderState → Option Bool)
    (acc : List (String × OrderState) × List OrderState)
    (e : String × OrderState) : List (String × OrderState) × List OrderState :=
  if e.2.type ≠ OrderType.STOP ∧ e.2.type ≠ OrderType.STOP_LIMIT then acc
  else
    match findTrigger e.2 with
    | none => acc
    | some trig =>
      if trig then
        (mapSet acc.1 e.1 (convState now e.2), acc.2 ++ [convState now e.2])
      else acc

/-- Trigger decision of processStopOrdersTick: none when the symbol has no
quote or the stop price is falsy; otherwise BUY triggers at quote price at
or above the stop, SELL at or below. -/
def tickTrigger (quotes : List MarketQuote) (st : OrderState) : Option Bool :=
  match quotes.find? (fun q => q.symbol = st.symbol) with
  | none => none
  | some q =>
    if ¬ truthyQ st.stopPrice then none
    else some (if st.side = Side.BUY then decide (q.price ≥ st.stopPrice.getD 0)
      else decide (q.price ≤ st.stopPrice.getD 0))

/-- Trigger decision of processStopOrdersBar: BUY triggers when the bar
high reached the stop, SELL when the bar low reached it. -/
def barTrigger (candles : List CandleStick) (st : OrderState) : Option Bool :=
  match candles.find? (fun c => c.symbol = st.symbol) with
  | none => none
  | some c =>
    if ¬ truthyQ st.stopPrice then none
    else some (if st.side = Side.BUY then decide (c.high ≥ st.stopPrice.getD 0)
      else decide (c.low ≤ st.stopPrice.getD 0))

/-- processStopOrdersTick: fold the conversion step over the open-orders
entries, returning the updated map and the conversion snapshots. -/
def processStopOrdersTick (b : Broker) (quotes : List MarketQuote) :
    List (String × OrderState) × List OrderState :=
  b.openOrders.foldl (stopStep b.now (tickTrigger quotes)) (b.openOrders, [])

/-- processStopOrdersBar. -/
def processStopOrdersBar (b : Broker) (candles : List CandleStick) :
    List (String × OrderState) × List OrderState :=
  b.openOrders.foldl (stopStep b.now (barTrigger candles)) (b.openOrders, [])

/-- Accumulator of the fill pass: broker state plus the updated-state and
fill lists collected so far. -/
structure PassAcc where
  broker : Broker
  updated : List OrderState
  filled : List Fill
deriving DecidableEq

/-- Guard chain of one fill-pass iteration: a MARKET or LIMIT order with a
row for its symbol, a base match price and a nonzero fill quantity yields
the row, match price and fill quantity; every continue of the JS loop
yields none, in the same order of tests. -/
def normalDecision (cfg : BacktestConfig)
    (findRow : String → Option ρ) (matchPrice : OrderState → ρ → Option ℚ)
    (rowVolume : ρ → Option ℚ) (st : OrderState) : Option (ρ × ℚ × ℚ) :=
  if st.type ≠ OrderType.MARKET ∧ st.type ≠ OrderType.LIMIT then none
  else
    match findRow st.symbol with
    | none => none
    | some row =>
      match matchPrice st row with
      | none => none
      | some fillPrice =>
        let fillQuant := getFillQuantity cfg st (rowVolume row)
        if fillQuant = 0 then none
        else some (row, fillPrice, fillQuant)

/-- One iteration of the fill pass shared by the tick and bar passes,
parameterised by the lookup of the row for a symbol, the base match price
and the row volume.  An entry passing the guard chain is filled with
slippage; a fully filled order leaves openOrders and decrements its
symbol refcount, a partially filled one is written back. -/
def normalStep (findRow : String → Option ρ) (matchPrice : OrderState → ρ → Option ℚ)
    (rowVolume : ρ → Option ℚ) (acc : PassAcc) (e : String × OrderState) : PassAcc :=
  match normalDecision acc.broker.config findRow matchPrice rowVolume e.2 with
  | none => acc
  | some (row, fillPrice, fillQuant) =>
    let fres :=
      fillWithSlippage acc.broker.config acc.broker.position
        acc.broker.orderIdCounter acc.broker.now e.2 fillPrice fillQuant
        (rowVolume row)
    let fill := fres.1
    let st2 := fres.2.1
    let pos2 := fres.2.2.1
    let counter2 := fres.2.2.2
    let b2 :=
      if st2.status = OrderStatus.FILLED then
        { acc.broker with
          position := pos2, orderIdCounter := counter2,
          openOrders := mapDelete acc.broker.openOrders e.1,
          openSymbols := decOpenSymbols acc.broker.openSymbols st2.symbol }
      else
        { acc.broker with
          position := pos2, orderIdCounter := counter2,
          openOrders := mapSet acc.broker.openOrders e.1 st2 }
    { broker := b2, updated := acc.updated ++ [st2],
      filled := acc.filled ++ [fill] }

/-- processNormalOrdersTick: fold the fill step over a snapshot of the
open-orders entries. -/
def processNormalOrdersTick (b : Broker) (quotes : List MarketQuote) : PassAcc :=
  b.openOrders.foldl
    (normalStep (fun sym => quotes.find? (fun q => q.symbol = sym))
      getMatchPriceTick (fun q => q.volume))
    { broker := b, updated := [], filled := [] }

/-- processNormalOrdersBar. -/
def processNormalOrdersBar (b : Broker) (candles : List CandleStick) : PassAcc :=
  b.openOrders.foldl
    (normalStep (fun sym => candles.find? (fun c => c.symbol = sym))
      getMatchPriceBar (fun c => some c.volume))
    { broker := b, updated := [], filled := [] }

/-- Result of a matching pass as returned to the caller. -/
structure MatchResult where
  updated : List OrderState
  filled : List Fill
deriving DecidableEq

/-- BacktestBroker.processOpenOrders: inspect the first row of the batch
for an open field to pick bar or tick matching; run the stop-conversion
pass, then the fill pass over the converted map; the updated list is the
conversion snapshots followed by the fill-pass updates.  An empty batch
makes the JS code dereference undefined and is modelled as none. -/
def processOpenOrders (b : Broker) (rows : List Row) :
    Option (Broker × MatchResult) :=
  match rows with
  | [] => none
  | r0 :: _ =>
    if r0.openPrice.isSome then
      let candles := rows.map Row.toCandle
      let stopRes := processStopOrdersBar b candles
      let res := processNormalOrdersBar { b with openOrders := stopRes.1 } candles
      some (res.broker,
        { updated := stopRes.2 ++ res.updated, filled := res.filled })
    else
      let quotes := rows.map Row.toQuote
      let stopRes := processStopOrdersTick b quotes
      let res := processNormalOrdersTick { b with openOrders := stopRes.1 } quotes
      some (res.broker,
        { updated := stopRes.2 ++ res.updated, filled := res.filled })

/-! ## Metrics engine (src/unnamed/part_015, class BacktestMetrics) -/

/-- Market snapshot: latest price per symbol plus its timestamp. -/
structure MarketSnapshot where
  price : List (String × ℚ)
  timestamp : ℤ
deriving DecidableEq

/-- Modelled from the spec: the trading-core running estimators
(RunningSharpe, RunningSortino, RunningWinRate, RunningGainLoss,
RunningExpectancy, RunningProfitFactor) are external online statistics
with update, value and reset.  Their state is modelled as the trace of
observations fed to them, which is what the claims about feeding and
resetting quantify over. -/
structure RunningStat where
  fed : List ℚ
deriving DecidableEq

def RunningStat.update (r : RunningStat) (x : ℚ) : RunningStat :=
  { fed := r.fed ++ [x] }

def RunningStat.reset (_ : RunningStat) : RunningStat :=
  { fed := [] }

/-- Modelled from the spec: RunningDrawdown and RunningLongestDrawdown are
external estimators keyed by equity and timestamp; state modelled as the
trace of observations. -/
structure RunningTimed where
  fed : List (ℚ × ℤ)
deriving DecidableEq

def RunningTimed.update (r : RunningTimed) (x : ℚ) (t : ℤ) : RunningTimed :=
  { fed := r.fed ++ [(x, t)] }

def RunningTimed.reset (_ : RunningTimed) : RunningTimed :=
  { fed := [] }

/-- Modelled from the spec: trading-core appraisePosition is external.
Per the metrics section, equity is cash plus the long lots marked at the
snapshot price minus the short lots marked at the snapshot price. -/
def appraisePosition (pos : Position) (snap : MarketSnapshot) : ℚ :=
  let longVal := (pos.long.map (fun e =>
    (e.2.map (fun lot => lot.quantity * (mapGet snap.price e.1).getD 0)).sum)).sum
  let shortVal := (pos.short.map (fun e =>
    (e.2.map (fun lot => lot.quantity * (mapGet snap.price e.1).getD 0)).sum)).sum
  pos.cash + longVal - shortVal

inductive ReportType
  | PERIODIC
  | TRADE
  | ENDOFDAY
deriving DecidableEq

/-- A metrics report.  The numeric value fields of the external estimators
are rendered as their observation traces. -/
structure MetricsReport where
  reportType : ReportType
  timestamp : ℤ
  equity : ℚ
  totalReturn : ℚ
  sharpeFed : List ℚ
  sortinoFed : List ℚ
  winRateFed : List ℚ
  gainLossFed : List ℚ
  expectancyFed : List ℚ
  profitFactorFed : List ℚ
  drawdownFed : List (ℚ × ℤ)
  drawdownDurFed : List (ℚ × ℤ)
deriving DecidableEq

structure BacktestMetrics where
  sharpe : RunningStat
  sortino : RunningStat
  winRate : RunningStat
  gainLoss : RunningStat
  expectancy : RunningStat
  profitFactor : RunningStat
  drawdown : RunningTimed
  drawdownDur : RunningTimed
  initialCash : ℚ
  prevEquity : ℚ
deriving DecidableEq

def mkMetrics (initialCash : ℚ) : BacktestMetrics :=
  { sharpe := { fed := [] }, sortino := { fed := [] }, winRate := { fed := [] },
    gainLoss := { fed := [] }, expectancy := { fed := [] },
    profitFactor := { fed := [] }, drawdown := { fed := [] },
    drawdownDur := { fed := [] }, initialCash := initialCash,
    prevEquity := initialCash }

/-- BacktestMetrics.reset: reset every estimator and restore prevEquity to
initialCash. -/
def BacktestMetrics.reset (m : BacktestMetrics) : BacktestMetrics :=
  { m with
    sharpe := m.sharpe.reset, sortino := m.sortino.reset,
    winRate := m.winRate.reset, gainLoss := m.gainLoss.reset,
    expectancy := m.expectancy.reset, profitFactor := m.profitFactor.reset,
    drawdown := m.drawdown.reset, drawdownDur := m.drawdownDur.reset,
    prevEquity := m.initialCash }

/-- BacktestMetrics.update: mark to market, compute the per-step return,
feed it to the Sharpe and Sortino estimators, feed equity and timestamp to
the drawdown estimators, store the new prevEquity.  The win-rate,
gain-loss, expectancy and profit-factor estimators are not touched by this
method in the source. -/
def BacktestMetrics.update (m : BacktestMetrics) (pos : Position)
    (snap : MarketSnapshot) : BacktestMetrics :=
  let equity := appraisePosition pos snap
  let returns := (equity - m.prevEquity) / m.prevEquity
  let timestamp := snap.timestamp
  { m with
    sharpe := m.sharpe.update returns,
    sortino := m.sortino.update returns,
    drawdown := m.drawdown.update equity timestamp,
    drawdownDur := m.drawdownDur.update equity timestamp,
    prevEquity := equity }

/-- BacktestMetrics.report. -/
def BacktestMetrics.report (m : BacktestMetrics) (rt : ReportType)
    (pos : Position) (snap : MarketSnapshot) (timestamp : ℤ) : MetricsReport :=
  let equity := appraisePosition pos snap
  { reportType := rt, timestamp := timestamp, equity := equity,
    totalReturn := (equity - m.initialCash) / m.initialCash,
    sharpeFed := m.sharpe.fed, sortinoFed := m.sortino.fed,
    winRateFed := m.winRate.fed, gainLossFed := m.gainLoss.fed,
    expectancyFed := m.expectancy.fed, profitFactorFed := m.profitFactor.fed,
    drawdownFed := m.drawdown.fed, drawdownDurFed := m.drawdownDur.fed }

/-! ## Time conversion (src/src/shared/utils.ts, toEpoch with days unit) -/

/-- toEpoch with the days unit: floor((t + offset(tz, t)) / 86400000).
The timezone offset comes from the external date-fns-tz library and is
abstracted as a function from the instant to its offset in milliseconds
(Modelled from the spec: getTimezoneOffset is external). -/
def toEpochDays (ofs : ℤ → ℤ) (t : ℤ) : ℤ :=
  Int.fdiv (t + ofs t) 86400000

/-! ## Client session (src/src/server/handlers/unsubscribe.handler.ts) -/

/-- An outbound event produced during replay. -/
inductive SbtEvent
  | order (updated : List OrderState) (fill : List Fill)
  | metrics (report : MetricsReport)
  | market (timestamp : ℤ) (marketData : List Row)
deriving DecidableEq

structure ClientState where
  subscriptions : List String
  broker : Broker
  periodicMetrics : BacktestMetrics
  tradeMetrics : BacktestMetrics
  eodMetrics : BacktestMetrics
  reportPeriod : ℕ
  tradeReport : Bool
  eodReport : Bool
  eventCounter : ℕ
  currentDay : ℤ
  currentReplayTime : ℤ
deriving DecidableEq

/-- JS Set.add folded over the symbol list: append when absent. -/
def setAdd (s : List String) (sym : String) : List String :=
  if sym ∈ s then s else s ++ [sym]

/-- ClientState.addSubscriptions: add every symbol to the subscription set
and return the input list unchanged. -/
def ClientState.addSubscriptions (c : ClientState) (symbols : List String) :
    ClientState × List String :=
  ({ c with subscriptions := symbols.foldl setAdd c.subscriptions }, symbols)

/-- ClientState.removeSubscriptions: delete each symbol, returning only
the symbols that were present. -/
def ClientState.removeSubscriptions (c : ClientState) (symbols : List String) :
    ClientState × List String :=
  let f := symbols.foldl
    (fun acc sym =>
      if sym ∈ acc.1 then (acc.1.filter (fun x => ¬ (x = sym)), acc.2 ++ [sym])
      else acc)
    (c.subscriptions, [])
  ({ c with subscriptions := f.1 }, f.2)

/-- ClientState.processOrderUpdate: feed the batch through the broker;
when any state was updated emit an order event, and when fills occurred
and trade reporting is on, update the trade metrics and emit a TRADE
metrics report.  none models the crash of processOpenOrders on an empty
batch. -/
def ClientState.processOrderUpdate (c : ClientState) (data : List Row)
    (snap : MarketSnapshot) : Option (ClientState × List SbtEvent) :=
  (processOpenOrders c.broker data).map (fun br =>
    let c1 := { c with broker := br.1 }
    let res := br.2
    if res.updated.length > 0 then
      let orderEvents := [SbtEvent.order res.updated res.filled]
      let pos := c1.broker.position
      if c1.tradeReport ∧ res.filled.length > 0 then
        let tm := c1.tradeMetrics.update pos snap
        let rep := tm.report ReportType.TRADE pos snap c1.currentReplayTime
        ({ c1 with tradeMetrics := tm },
          orderEvents ++ [SbtEvent.metrics rep])
      else (c1, orderEvents)
    else (c1, []))

/-- ClientState.processMarketData: detect an EOD rollover from the
day-index of the snapshot timestamp (emitting the ENDOFDAY report of the
previous day before resetting the EOD metrics), update the periodic and
EOD metrics, bump the event counter and emit a PERIODIC report every
reportPeriod events. -/
def ClientState.processMarketData (ofs : ℤ → ℤ) (c : ClientState)
    (snap : MarketSnapshot) : ClientState × List SbtEvent :=
  let pos := c.broker.position
  let day := toEpochDays ofs snap.timestamp
  let eodPair :=
    if c.eodReport ∧ c.currentDay ≠ -1 ∧ day > c.currentDay then
      ([SbtEvent.metrics
          (c.eodMetrics.report ReportType.ENDOFDAY pos snap c.currentReplayTime)],
        c.eodMetrics.reset)
    else ([], c.eodMetrics)
  let counter := c.eventCounter + 1
  let c2 := { c with
    currentDay := day,
    periodicMetrics := c.periodicMetrics.update pos snap,
    eodMetrics := eodPair.2.update pos snap,
    eventCounter := counter }
  let periodicEvents :=
    if 0 < c2.reportPeriod ∧ counter % c2.reportPeriod = 0 then
      [SbtEvent.metrics
        (c2.periodicMetrics.report ReportType.PERIODIC pos snap c2.currentReplayTime)]
    else []
  (c2, eodPair.1 ++ periodicEvents)

/-! ## Replay loop phases for one client (src/unnamed/part_014) -/

/-- Order phase of one replay batch for one client: when the broker has
open symbols, intersect the batch with them and call processOrderUpdate
only when the intersection is non-empty.  none can only arise from
processOpenOrders being handed an empty batch. -/
def orderPhaseClient (c : ClientState) (data : List Row)
    (snap : MarketSnapshot) : Option (ClientState × List SbtEvent) :=
  let openSyms := getOpenSymbols c.broker.openSymbols
  if openSyms.length > 0 then
    let clientData := data.filter (fun q => q.symbol ∈ openSyms)
    if clientData.length > 0 then c.processOrderUpdate clientData snap
    else some (c, [])
  else some (c, [])

/-- Market phase of one replay batch for one client: compute the filtered
slice (full batch under a wildcard subscription), call processMarketData
when the slice is non-empty, and, when multiplex mode is off, emit a
market event carrying the slice to this client unconditionally. -/
def wildcard : String := "*"

/-- The filtered slice of a batch for one client: the full batch under a
wildcard subscription, otherwise the rows whose symbol is subscribed. -/
def clientSlice (c : ClientState) (data : List Row) : List Row :=
  if wildcard ∈ c.subscriptions then data
  else data.filter (fun q => q.symbol ∈ c.subscriptions)

def marketPhaseClient (multiplex : Bool) (ofs : ℤ → ℤ) (replayTime : ℤ)
    (c : ClientState) (data : List Row) (snap : MarketSnapshot) :
    ClientState × List SbtEvent :=
  let clientData := clientSlice c data
  let stepped :=
    if clientData.length > 0 then c.processMarketData ofs snap
    else (c, [])
  if ¬ multiplex then
    (stepped.1, stepped.2 ++ [SbtEvent.market replayTime clientData])
  else stepped

/-! ## Basic lemmas about the JS Map model -/

theorem mapGet_nil (k : String) : mapGet ([] : List (String × β)) k = none := rfl

theorem mapGet_cons (e : String × β) (m : List (String × β)) (k : String) :
    mapGet (e :: m) k = if e.1 = k then some e.2 else mapGet m k := by
  by_cases h : e.1 = k <;> simp [mapGet, List.find?_cons, h]

theorem mapGet_eq_none_iff (m : List (String × β)) (k : String) :
    mapGet m k = none ↔ ∀ e ∈ m, e.1 ≠ k := by
  simp [mapGet, List.find?_eq_none]

theorem mapSet_of_absent (m : List (String × β)) (k : String) (v : β)
    (h : mapGet m k = none) : mapSet m k v = m ++ [(k, v)] := by
  have h2 : m.find? (fun e => e.1 = k) = none := by
    cases hf : m.find? (fun e => e.1 = k) with
    | none => rfl
    | some e => simp [mapGet, hf] at h
  simp [mapSet, h2]

theorem mapGet_append_right (m : List (String × β)) (k : String) (v : β)
    (h : mapGet m k = none) : mapGet (m ++ [(k, v)]) k = some v := by
  induction m with
  | nil => simp [mapGet, List.find?]
  | cons e rest ih =>
    rw [List.cons_append, mapGet_cons]
    rw [mapGet_cons] at h
    by_cases he : e.1 = k
    · simp [he] at h
    · simpa [he] using ih (by simpa [he] using h)

theorem keys_mapSet_present (m : List (String × β)) (k : String) (v : β)
    (h : (m.find? (fun e => e.1 = k)).isSome) :
    (mapSet m k v).map (fun e => e.1) = m.map (fun e => e.1) := by
  simp only [mapSet, h, if_true, List.map_map]
  apply List.map_congr_left
  intro e _
  by_cases he : e.1 = k <;> simp [he]

theorem keysNodup_mapSet (m : List (String × β)) (k : String) (v : β)
    (h : KeysNodup m) : KeysNodup (mapSet m k v) := by
  by_cases hf : (m.find? (fun e => e.1 = k)).isSome
  · unfold KeysNodup
    rw [keys_mapSet_present m k v hf]
    exact h
  · have hnone : m.find? (fun e => e.1 = k) = none := by
      cases hc : m.find? (fun e => e.1 = k) with
      | none => rfl
      | some e => simp [hc] at hf
    have habs : ∀ e ∈ m, ¬ (e.1 = k) := by
      intro e he
      have := List.find?_eq_none.mp hnone e he
      simpa using this
    unfold KeysNodup at h ⊢
    simp only [mapSet, hnone, Option.isSome_none, Bool.false_eq_true, if_false,
      List.map_append]
    rw [List.nodup_append]
    refine ⟨h, by simp, ?_⟩
    intro a ha
    simp only [List.map_cons, List.map_nil, List.disjoint_singleton]
    simp only [List.mem_map] at ha
    obtain ⟨e, he, rfl⟩ := ha
    intro hcon
    simp only [List.mem_singleton] at hcon
    exact habs e he hcon

theorem keysNodup_mapDelete (m : List (String × β)) (k : String)
    (h : KeysNodup m) : KeysNodup (mapDelete m k) := by
  unfold KeysNodup at h ⊢
  exact (h.sublist (List.Sublist.map _ (List.filter_sublist m)))

theorem keysNodup_incOpenSymbols (m : List (String × ℤ)) (sym : String)
    (h : KeysNodup m) : KeysNodup (incOpenSymbols m sym) :=
  keysNodup_mapSet m sym _ h

theorem keysNodup_decOpenSymbols (m : List (String × ℤ)) (sym : String)
    (h : KeysNodup m) : KeysNodup (decOpenSymbols m sym) := by
  unfold decOpenSymbols
  by_cases hc : (mapGet m sym).getD 0 - 1 = 0 <;>
    simp only [hc, if_true, if_false, reduceIte]
  · exact keysNodup_mapDelete _ _ (keysNodup_mapSet m sym _ h)
  · exact keysNodup_mapSet m sym _ h

/-! ## Submit lemmas -/

theorem submitStep_keysNodup (b : Broker) (o : Order)
    (h : KeysNodup b.openOrders) : KeysNodup (submitStep b o).1.openOrders := by
  unfold submitStep
  by_cases hc : (mapGet b.openOrders o.id).isSome
  · simp [hc, h]
  · simp only [hc, Bool.false_eq_true, if_false]
    exact keysNodup_mapSet _ _ _ h

theorem submitOrder_fold_fst (orders : List Order) :
    ∀ (b : Broker) (l : List OrderState),
      (orders.foldl
        (fun acc o =>
          let p := submitStep acc.1 o
          (p.1, acc.2 ++ [p.2])) (b, l)).1 =
      orders.foldl (fun bb o => (submitStep bb o).1) b := by
  induction orders with
  | nil => intro b l; rfl
  | cons o rest ih => intro b l; exact ih _ _

theorem submitOrder_fst_keysNodup (b : Broker) (orders : List Order)
    (h : KeysNodup b.openOrders) : KeysNodup (submitOrder b orders).1.openOrders := by
  unfold submitOrder
  rw [submitOrder_fold_fst]
  induction orders generalizing b with
  | nil => exact h
  | cons o rest ih =>
    simp only [List.foldl_cons]
    exact ih _ (submitStep_keysNodup b o h)

/-- C1: a submit whose order id already sits in openOrders is answered with
a REJECTED state and mutates nothing: the whole broker value (openOrders,
openSymbols, position) is returned unchanged; key uniqueness of openOrders
is preserved by every submit; and submitting two orders with the same id
on a fresh id yields an accepted state followed by a REJECTED state, the
broker equal to submitting the first alone, and exactly one openOrders
entry for that id. -/
theorem claimC1_duplicate_submit_rejected :
    (∀ (b : Broker) (o : Order), (mapGet b.openOrders o.id).isSome →
      submitStep b o = (b, rejectOrder o) ∧
      (rejectOrder o).status = OrderStatus.REJECTED) ∧
    (∀ (b : Broker) (orders : List Order), KeysNodup b.openOrders →
      KeysNodup (submitOrder b orders).1.openOrders) ∧
    (∀ (b : Broker) (o1 o2 : Order), o2.id = o1.id →
      mapGet b.openOrders o1.id = none →
      (submitOrder b [o1, o2]).2 =
        [{ acceptOrder o1 with modified := b.now }, rejectOrder o2] ∧
      (submitOrder b [o1, o2]).1 = (submitOrder b [o1]).1 ∧
      ((submitOrder b [o1, o2]).1.openOrders.filter
        (fun e => e.1 = o1.id)).length = 1) := by
  refine ⟨?_, ?_, ?_⟩
  · intro b o h
    refine ⟨?_, rfl⟩
    simp [submitStep, h]
  · exact submitOrder_fst_keysNodup
  · intro b o1 o2 hid habs
    have habs' : ∀ e ∈ b.openOrders, e.1 ≠ o1.id :=
      (mapGet_eq_none_iff _ _).mp habs
    have hset : mapSet b.openOrders o1.id { acceptOrder o1 with modified := b.now } =
        b.openOrders ++ [(o1.id, { acceptOrder o1 with modified := b.now })] :=
      mapSet_of_absent _ _ _ habs
    have hnotSome : ¬ (mapGet b.openOrders o1.id).isSome := by
      simp [habs]
    have hget2 : mapGet (b.openOrders ++
        [(o1.id, { acceptOrder o1 with modified := b.now })]) o1.id =
        some { acceptOrder o1 with modified := b.now } :=
      mapGet_append_right _ _ _ habs
    constructor
    · simp only [submitOrder, List.foldl_cons, List.foldl_nil, submitStep,
        hnotSome, Bool.false_eq_true, if_false, hset, hid, hget2,
        Option.isSome_some, if_true, List.nil_append]
      rfl
    constructor
    · simp only [submitOrder, List.foldl_cons, List.foldl_nil, submitStep,
        hnotSome, Bool.false_eq_true, if_false, hset, hid, hget2,
        Option.isSome_some, if_true]
    · simp only [submitOrder, List.foldl_cons, List.foldl_nil, submitStep,
        hnotSome, Bool.false_eq_true, if_false, hset, hid, hget2,
        Option.isSome_some, if_true, List.filter_append]
      have h1 : b.openOrders.filter (fun e => e.1 = o1.id) = [] := by
        rw [List.filter_eq_nil_iff]
        intro e he
        simpa using habs' e he
      simp [h1]

/-- Concrete inputs for witnesses. -/
def cfg0 : BacktestConfig :=
  { initialCash := 10000, riskFree := none, commission := none, slippage := none }

def ord1 : Order :=
  { id := "o1", symbol := "X", side := Side.BUY, effect := Effect.OPEN_LONG,
    type := OrderType.MARKET, quantity := 10, price := none, stopPrice := none }

/-- Witness for C1: the duplicate-id scenario S4 on a fresh broker. -/
theorem claimC1_witness :
    (submitOrder (mkBroker cfg0) [ord1, ord1]).2 =
      [{ acceptOrder ord1 with modified := (mkBroker cfg0).now }, rejectOrder ord1] ∧
    (submitOrder (mkBroker cfg0) [ord1, ord1]).1 =
      (submitOrder (mkBroker cfg0) [ord1]).1 ∧
    ((submitOrder (mkBroker cfg0) [ord1, ord1]).1.openOrders.filter
      (fun e => e.1 = ord1.id)).length = 1 :=
  claimC1_duplicate_submit_rejected.2.2 (mkBroker cfg0) ord1 ord1 rfl rfl

/-! ## C8: addSubscriptions return value -/

theorem mem_foldl_setAdd (l : List String) :
    ∀ (init : List String) (s : String),
      s ∈ l.foldl setAdd init ↔ s ∈ init ∨ s ∈ l := by
  induction l with
  | nil => intro init s; simp
  | cons x rest ih =>
    intro init s
    rw [List.foldl_cons, ih]
    unfold setAdd
    by_cases hx : x ∈ init
    · simp only [hx, if_true]
      constructor
      · rintro (h | h)
        · exact Or.inl h
        · exact Or.inr (List.mem_cons_of_mem _ h)
      · rintro (h | h)
        · exact Or.inl h
        · rcases List.mem_cons.mp h with h | h
          · exact Or.inl (h ▸ hx)
          · exact Or.inr h
    · simp only [hx, if_false, List.mem_append, List.mem_singleton, List.mem_cons]
      tauto

def clientOf (cfg : BacktestConfig) (subs : List String) : ClientState :=
  { subscriptions := subs, broker := mkBroker cfg,
    periodicMetrics := mkMetrics cfg.initialCash,
    tradeMetrics := mkMetrics cfg.initialCash,
    eodMetrics := mkMetrics cfg.initialCash,
    reportPeriod := 0, tradeReport := false, eodReport := false,
    eventCounter := 0, currentDay := -1, currentReplayTime := 0 }

def symA : String := "A"

def clientA : ClientState := clientOf cfg0 [symA]

/-- C8 counterexample: a symbol that is already subscribed does appear in
the list returned by addSubscriptions, so the return value is not the list
of symbols actually added. -/
theorem claimC8_counterexample :
    symA ∈ clientA.subscriptions ∧
    symA ∈ (clientA.addSubscriptions [symA]).2 ∧
    (clientA.addSubscriptions [symA]).1.subscriptions = clientA.subscriptions := by
  decide

/-- C8 amended: addSubscriptions returns its input list verbatim
(regardless of prior membership), while the subscription set afterwards
holds exactly the old members and the submitted symbols. -/
theorem claimC8_addSubscriptions_returns_input :
    ∀ (c : ClientState) (symbols : List String),
      (c.addSubscriptions symbols).2 = symbols ∧
      ∀ s, s ∈ (c.addSubscriptions symbols).1.subscriptions ↔
        s ∈ c.subscriptions ∨ s ∈ symbols := by
  intro c symbols
  exact ⟨rfl, fun s => mem_foldl_setAdd symbols c.subscriptions s⟩

/-! ## C7: which estimators BacktestMetrics.update feeds -/

def snap0 : MarketSnapshot := { price := [], timestamp := 0 }

/-- C7 counterexample: update does not feed the computed return to the
win-rate estimator (nor, by the amended theorem below, to the gain-loss,
expectancy or profit-factor estimators). -/
theorem claimC7_counterexample :
    ¬ ((BacktestMetrics.update (mkMetrics 10000) (createPosition 10000) snap0).winRate.fed
        = (mkMetrics 10000).winRate.fed ++
          [(appraisePosition (createPosition 10000) snap0 -
            (mkMetrics 10000).prevEquity) / (mkMetrics 10000).prevEquity]) := by
  decide

/-- C7 amended: update marks the position to market for the equity, feeds
the per-step return to the Sharpe and Sortino estimators only, feeds
equity and timestamp to both drawdown estimators, stores equity as the new
prevEquity, and leaves the win-rate, gain-loss, expectancy and
profit-factor estimators untouched. -/
theorem claimC7_update_feeds :
    ∀ (m : BacktestMetrics) (pos : Position) (snap : MarketSnapshot),
      (m.update pos snap).sharpe.fed = m.sharpe.fed ++
        [(appraisePosition pos snap - m.prevEquity) / m.prevEquity] ∧
      (m.update pos snap).sortino.fed = m.sortino.fed ++
        [(appraisePosition pos snap - m.prevEquity) / m.prevEquity] ∧
      (m.update pos snap).drawdown.fed = m.drawdown.fed ++
        [(appraisePosition pos snap, snap.timestamp)] ∧
      (m.update pos snap).drawdownDur.fed = m.drawdownDur.fed ++
        [(appraisePosition pos snap, snap.timestamp)] ∧
      (m.update pos snap).prevEquity = appraisePosition pos snap ∧
      (m.update pos snap).winRate = m.winRate ∧
      (m.update pos snap).gainLoss = m.gainLoss ∧
      (m.update pos snap).expectancy = m.expectancy ∧
      (m.update pos snap).profitFactor = m.profitFactor := by
  intro m pos snap
  refine ⟨rfl, rfl, rfl, rfl, rfl, rfl, rfl, rfl, rfl⟩

/-! ## C4: the volume participation cap -/

/-- Claimed fill-quantity rule, written from the words of the claim for
comparison with the source function: cap = volume times maxParticipation
whenever both a volume-slippage config with maxParticipation and a batch
volume are present (including maxParticipation 0), infinite otherwise;
fill the remainder when it fits under the cap, else exactly the cap when
allowPartialFills, else nothing. -/
def specFillQuantity (cfg : BacktestConfig) (st : OrderState) (vol : Option ℚ) : ℚ :=
  match cfg.slippage.bind (fun s => s.volume) with
  | none => st.remainingQuantity
  | some vc =>
    match vc.maxParticipation, vol with
    | some mp, some v =>
      let cap := v * mp
      if st.remainingQuantity ≤ cap then st.remainingQuantity
      else if truthyB vc.allowPartialFills then cap else 0
    | _, _ => st.remainingQuantity

def volCfg0 : VolumeSlippageConfig :=
  { maxParticipation := some 0, allowPartialFills := some false }

def cfgMp0 : BacktestConfig :=
  { initialCash := 10000, riskFree := none, commission := none,
    slippage := some { price := none, volume := some volCfg0 } }

def stOrd1 : OrderState := acceptOrder ord1

/-- C4 counterexample: with maxParticipation 0 and a batch volume of 100
the code ignores the cap entirely (JS truthiness of 0) and returns the
full remaining quantity 10, where the claim demands a cap of 0 and hence a
fill of 0. -/
theorem claimC4_counterexample :
    getFillQuantity cfgMp0 stOrd1 (some 100) = 10 ∧
    specFillQuantity cfgMp0 stOrd1 (some 100) = 0 ∧
    getFillQuantity cfgMp0 stOrd1 (some 100) ≠ specFillQuantity cfgMp0 stOrd1 (some 100) := by
  have h1 : getFillQuantity cfgMp0 stOrd1 (some 100) = 10 := by
    norm_num [getFillQuantity, cfgMp0, volCfg0, truthyQ, stOrd1, acceptOrder, ord1]
  have h2 : specFillQuantity cfgMp0 stOrd1 (some 100) = 0 := by
    norm_num [specFillQuantity, cfgMp0, volCfg0, truthyB, stOrd1, acceptOrder, ord1]
  refine ⟨h1, h2, ?_⟩
  rw [h1, h2]
  norm_num

/-- C4 amended: the cap volume times maxParticipation applies only when
the volume-slippage config is present and both the batch volume and
maxParticipation are present and nonzero (JS truthiness); when the config
is absent, or the volume is absent or 0, or maxParticipation is absent or
0, the whole remaining quantity is returned uncapped.  Under an applicable
cap, a remainder at or under the cap fills fully, and a larger remainder
fills exactly the cap when allowPartialFills is set and 0 otherwise. -/
theorem claimC4_volume_cap :
    (∀ (cfg : BacktestConfig) (st : OrderState) (vol : Option ℚ),
      cfg.slippage.bind (fun s => s.volume) = none →
      getFillQuantity cfg st vol = st.remainingQuantity) ∧
    (∀ (cfg : BacktestConfig) (vc : VolumeSlippageConfig) (st : OrderState)
        (vol : Option ℚ),
      cfg.slippage.bind (fun s => s.volume) = some vc →
      (¬ truthyQ vol ∨ ¬ truthyQ vc.maxParticipation) →
      getFillQuantity cfg st vol = st.remainingQuantity) ∧
    (∀ (cfg : BacktestConfig) (vc : VolumeSlippageConfig) (st : OrderState)
        (v mp : ℚ),
      cfg.slippage.bind (fun s => s.volume) = some vc →
      vc.maxParticipation = some mp → mp ≠ 0 → v ≠ 0 →
      (st.remainingQuantity ≤ v * mp →
        getFillQuantity cfg st (some v) = st.remainingQuantity) ∧
      (v * mp < st.remainingQuantity → truthyB vc.allowPartialFills →
        getFillQuantity cfg st (some v) = v * mp) ∧
      (v * mp < st.remainingQuantity → ¬ truthyB vc.allowPartialFills →
        getFillQuantity cfg st (some v) = 0)) := by
  refine ⟨?_, ?_, ?_⟩
  · intro cfg st vol h
    simp [getFillQuantity, h]
  · intro cfg vc st vol h hfalsy
    rcases hfalsy with hf | hf
    · simp [getFillQuantity, h, hf]
    · by_cases hv : truthyQ vol
      · simp [getFillQuantity, h, hv, hf]
      · simp [getFillQuantity, h, hv]
  · intro cfg vc st v mp h hmp hmp0 hv0
    have hvt : truthyQ (some v) = true := by simp [truthyQ, hv0]
    have hmpt : truthyQ vc.maxParticipation = true := by simp [truthyQ, hmp, hmp0]
    have hchar : getFillQuantity cfg st (some v) =
        if v * mp < st.remainingQuantity then
          (if truthyB vc.allowPartialFills then v * mp else 0)
        else st.remainingQuantity := by
      unfold getFillQuantity
      rw [h]
      have hmpt2 : truthyQ (some mp) = true := hmp ▸ hmpt
      simp only [hvt, hmpt, hmp, hmpt2, not_true, Bool.true_eq_false, if_false,
        Option.getD_some, if_true, reduceIte, gt_iff_lt]
    refine ⟨?_, ?_, ?_⟩
    · intro hle
      rw [hchar, if_neg (by linarith)]
    · intro hgt hpart
      rw [hchar, if_pos hgt, if_pos hpart]
    · intro hgt hpart
      rw [hchar, if_pos hgt, if_neg hpart]

def volCfgS3 : VolumeSlippageConfig :=
  { maxParticipation := some (1/10), allowPartialFills := some true }

def cfgS3 : BacktestConfig :=
  { initialCash := 10000, riskFree := none, commission := none,
    slippage := some { price := none, volume := some volCfgS3 } }

def ordS3 : Order :=
  { id := "o3", symbol := "X", side := Side.BUY, effect := Effect.OPEN_LONG,
    type := OrderType.MARKET, quantity := 1000, price := none, stopPrice := none }

/-- C4 witness: scenario S3 — 1000 remaining against volume 5000 at 10
percent participation with partial fills allowed gives exactly 500. -/
theorem claimC4_witness :
    getFillQuantity cfgS3 (acceptOrder ordS3) (some 5000) = 5000 * (1/10) :=
  ((claimC4_volume_cap.2.2 cfgS3 volCfgS3
      (acceptOrder ordS3) 5000 (1/10) rfl rfl (by norm_num) (by norm_num)).2.1
    (by norm_num [acceptOrder, ordS3]) rfl)

/-! ## C5: market phase emission -/

def rowB : Row :=
  { symbol := "B", price := 100, bid := none, ask := none, volume := none,
    openPrice := none, high := none, low := none, close := none }

/-- C5 counterexample: for a client subscribed only to symbol A and a
batch containing only symbol B, the filtered slice is empty, yet with
marketMultiplex off the market phase still emits a market event (carrying
the empty slice) to that client. -/
theorem claimC5_counterexample :
    clientSlice clientA [rowB] = [] ∧
    (marketPhaseClient false (fun _ => 0) 0 clientA [rowB] snap0).2 =
      [SbtEvent.market 0 []] := by
  constructor
  · decide
  · decide

/-- C5 amended: with marketMultiplex off, processMarketData runs (and its
metrics events are emitted) exactly when the filtered slice is non-empty,
but a market event carrying the slice is emitted to the client on every
batch, including batches whose slice is empty. -/
theorem claimC5_market_phase :
    ∀ (ofs : ℤ → ℤ) (rt : ℤ) (c : ClientState) (data : List Row)
      (snap : MarketSnapshot),
      (clientSlice c data ≠ [] →
        marketPhaseClient false ofs rt c data snap =
          ((c.processMarketData ofs snap).1,
            (c.processMarketData ofs snap).2 ++
              [SbtEvent.market rt (clientSlice c data)])) ∧
      (clientSlice c data = [] →
        marketPhaseClient false ofs rt c data snap =
          (c, [SbtEvent.market rt (clientSlice c data)])) := by
  intro ofs rt c data snap
  constructor
  · intro hne
    have hlen : (clientSlice c data).length > 0 := by
      cases hs : clientSlice c data with
      | nil => exact absurd hs hne
      | cons x xs => simp
    simp [marketPhaseClient, hlen]
  · intro he
    simp [marketPhaseClient, he]

/-- C5 witness for the amended theorem: the empty-slice branch at the
concrete counterexample input. -/
theorem claimC5_witness :
    marketPhaseClient false (fun _ => 0) 0 clientA [rowB] snap0 =
      (clientA, [SbtEvent.market 0 (clientSlice clientA [rowB])]) :=
  (claimC5_market_phase (fun _ => 0) 0 clientA [rowB] snap0).2 (by decide)

/-! ## C6: EOD rollover detection -/

/-- C6: once a previous batch has recorded a day index, processMarketData
emits a metrics event with reportType ENDOFDAY exactly when eodReport is
on and the day index (epoch days under the configured timezone offset) of
the snapshot timestamp strictly exceeds the recorded one; the emitted
report is computed from the EOD metrics before they are reset (the
post-call EOD metrics are the reset instance advanced by the new update). -/
theorem processMarketData_events (ofs : ℤ → ℤ) (c : ClientState)
    (snap : MarketSnapshot) :
    (c.processMarketData ofs snap).2 =
      (if c.eodReport = true ∧ c.currentDay ≠ -1 ∧
          toEpochDays ofs snap.timestamp > c.currentDay then
        [SbtEvent.metrics (c.eodMetrics.report ReportType.ENDOFDAY
          c.broker.position snap c.currentReplayTime)]
      else []) ++
      (if 0 < c.reportPeriod ∧ (c.eventCounter + 1) % c.reportPeriod = 0 then
        [SbtEvent.metrics ((c.periodicMetrics.update c.broker.position snap).report
          ReportType.PERIODIC c.broker.position snap c.currentReplayTime)]
      else []) := by
  by_cases hcond : c.eodReport = true ∧ c.currentDay ≠ -1 ∧
      toEpochDays ofs snap.timestamp > c.currentDay
  · simp [ClientState.processMarketData, hcond]
  · simp [ClientState.processMarketData, hcond]

theorem processMarketData_eodMetrics (ofs : ℤ → ℤ) (c : ClientState)
    (snap : MarketSnapshot) :
    (c.processMarketData ofs snap).1.eodMetrics =
      (if c.eodReport = true ∧ c.currentDay ≠ -1 ∧
          toEpochDays ofs snap.timestamp > c.currentDay then
        c.eodMetrics.reset
      else c.eodMetrics).update c.broker.position snap := by
  by_cases hcond : c.eodReport = true ∧ c.currentDay ≠ -1 ∧
      toEpochDays ofs snap.timestamp > c.currentDay
  · simp [ClientState.processMarketData, hcond]
  · simp [ClientState.processMarketData, hcond]

theorem claimC6_eod_rollover :
    ∀ (ofs : ℤ → ℤ) (c : ClientState) (snap : MarketSnapshot),
      c.currentDay ≠ -1 →
      ((∃ r, SbtEvent.metrics r ∈ (c.processMarketData ofs snap).2 ∧
          r.reportType = ReportType.ENDOFDAY) ↔
        (c.eodReport = true ∧ toEpochDays ofs snap.timestamp > c.currentDay)) ∧
      (c.eodReport = true → toEpochDays ofs snap.timestamp > c.currentDay →
        (∃ rest, (c.processMarketData ofs snap).2 =
          SbtEvent.metrics (c.eodMetrics.report ReportType.ENDOFDAY
            c.broker.position snap c.currentReplayTime) :: rest) ∧
        (c.processMarketData ofs snap).1.eodMetrics =
          (c.eodMetrics.reset).update c.broker.position snap) := by
  intro ofs c snap h
  rw [processMarketData_events, processMarketData_eodMetrics]
  by_cases hc : c.eodReport = true ∧ toEpochDays ofs snap.timestamp > c.currentDay
  · have hcond : c.eodReport = true ∧ c.currentDay ≠ -1 ∧
        toEpochDays ofs snap.timestamp > c.currentDay := ⟨hc.1, h, hc.2⟩
    rw [if_pos hcond, if_pos hcond]
    constructor
    · exact ⟨fun _ => hc, fun _ =>
        ⟨c.eodMetrics.report ReportType.ENDOFDAY c.broker.position snap
          c.currentReplayTime, List.mem_append_left _ (List.mem_singleton.mpr rfl), rfl⟩⟩
    · intro _ _
      exact ⟨⟨_, rfl⟩, rfl⟩
  · have hcond : ¬ (c.eodReport = true ∧ c.currentDay ≠ -1 ∧
        toEpochDays ofs snap.timestamp > c.currentDay) := by
      intro hcon
      exact hc ⟨hcon.1, hcon.2.2⟩
    rw [if_neg hcond, if_neg hcond]
    constructor
    · constructor
      · rintro ⟨r, hr, hrt⟩
        exfalso
        rw [List.nil_append] at hr
        by_cases hp : 0 < c.reportPeriod ∧ (c.eventCounter + 1) % c.reportPeriod = 0
        · rw [if_pos hp, List.mem_singleton] at hr
          cases hr
          simp [BacktestMetrics.report] at hrt
        · rw [if_neg hp] at hr
          exact absurd hr (List.not_mem_nil _)
      · intro hcon; exact absurd hcon hc
    · intro h1 h2; exact absurd ⟨h1, h2⟩ hc

def clientEod : ClientState :=
  { clientOf cfg0 [] with eodReport := true, currentDay := 0 }

def snapDay2 : MarketSnapshot := { price := [], timestamp := 172800000 }

/-- C6 witness: a client with recorded day 0 and a snapshot two days
later, under a zero timezone offset, emits the ENDOFDAY report first and
resets the EOD metrics. -/
theorem claimC6_witness :
    ((∃ r, SbtEvent.metrics r ∈ (clientEod.processMarketData (fun _ => 0) snapDay2).2 ∧
        r.reportType = ReportType.ENDOFDAY) ↔
      (clientEod.eodReport = true ∧
        toEpochDays (fun _ => 0) snapDay2.timestamp > clientEod.currentDay)) ∧
    ((∃ rest, (clientEod.processMarketData (fun _ => 0) snapDay2).2 =
        SbtEvent.metrics (clientEod.eodMetrics.report ReportType.ENDOFDAY
          clientEod.broker.position snapDay2 clientEod.currentReplayTime) :: rest) ∧
      (clientEod.processMarketData (fun _ => 0) snapDay2).1.eodMetrics =
        (clientEod.eodMetrics.reset).update clientEod.broker.position snapDay2) := by
  have h := claimC6_eod_rollover (fun _ => 0) clientEod snapDay2 (by decide)
  exact ⟨h.1, h.2 (by decide) (by decide)⟩

/-! ## C9: non-empty batch precondition of processOpenOrders -/

theorem processOpenOrders_isSome_of_ne_nil (b : Broker) (rows : List Row)
    (h : rows ≠ []) : (processOpenOrders b rows).isSome := by
  cases rows with
  | nil => exact absurd rfl h
  | cons r rest =>
    unfold processOpenOrders
    by_cases ho : r.openPrice.isSome <;> simp [ho]

/-- C9: processOpenOrders dereferences the first batch row and is
well-defined (some) exactly under a non-empty batch; at its replay-loop
call site the order phase only reaches processOrderUpdate behind the
guard that the intersection of the batch with the open symbols of the
broker of the client is non-empty, so the order phase never hits the
empty-batch case. -/
theorem claimC9_nonempty_batch :
    (∀ (b : Broker) (rows : List Row), rows ≠ [] →
      (processOpenOrders b rows).isSome) ∧
    (∀ (c : ClientState) (data : List Row) (snap : MarketSnapshot),
      (orderPhaseClient c data snap).isSome) := by
  constructor
  · exact processOpenOrders_isSome_of_ne_nil
  · intro c data snap
    unfold orderPhaseClient
    by_cases h1 : (getOpenSymbols c.broker.openSymbols).length > 0
    · simp only [h1, if_true, reduceIte]
      by_cases h2 : (data.filter
          (fun q => q.symbol ∈ getOpenSymbols c.broker.openSymbols)).length > 0
      · simp only [h2, if_true, reduceIte]
        unfold ClientState.processOrderUpdate
        have hs : (processOpenOrders c.broker (data.filter
            (fun q => q.symbol ∈ getOpenSymbols c.broker.openSymbols))).isSome := by
          apply processOpenOrders_isSome_of_ne_nil
          intro hnil
          rw [hnil] at h2
          simp at h2
        obtain ⟨v, hv⟩ := Option.isSome_iff_exists.mp hs
        rw [hv]
        rfl
      · simp [h2]
    · simp [h1]

/-- C9 witness: the non-emptiness part applied to a fresh broker and a
one-row batch. -/
theorem claimC9_witness :
    (processOpenOrders (mkBroker cfg0) [rowB]).isSome :=
  claimC9_nonempty_batch.1 (mkBroker cfg0) [rowB] (by decide)

/-! ## Fill-pass lemmas -/

theorem fillWithSlippage_fst_orderId (cfg : BacktestConfig) (pos : Position)
    (counter : ℕ) (now : ℤ) (st : OrderState) (price quant : ℚ)
    (vol : Option ℚ) :
    (fillWithSlippage cfg pos counter now st price quant vol).1.orderId = st.id := rfl

theorem fillWithSlippage_snd_state (cfg : BacktestConfig) (pos : Position)
    (counter : ℕ) (now : ℤ) (st : OrderState) (price quant : ℚ)
    (vol : Option ℚ) :
    (fillWithSlippage cfg pos counter now st price quant vol).2.1 =
      fillOrderState st quant now := rfl

/-- Inversion of the fill-pass guard chain. -/
theorem normalDecision_some {ρ : Type} (cfg : BacktestConfig)
    (fr : String → Option ρ) (mp : OrderState → ρ → Option ℚ)
    (rv : ρ → Option ℚ) (st : OrderState) (row : ρ) (p q : ℚ)
    (h : normalDecision cfg fr mp rv st = some (row, p, q)) :
    ¬ (st.type ≠ OrderType.MARKET ∧ st.type ≠ OrderType.LIMIT) ∧
    fr st.symbol = some row ∧ mp st row = some p ∧
    q = getFillQuantity cfg st (rv row) ∧ q ≠ 0 := by
  unfold normalDecision at h
  by_cases ht : st.type ≠ OrderType.MARKET ∧ st.type ≠ OrderType.LIMIT
  · rw [if_pos ht] at h
    exact absurd h (by simp)
  · rw [if_neg ht] at h
    cases hfr : fr st.symbol with
    | none => rw [hfr] at h; exact absurd h (by simp)
    | some row2 =>
      rw [hfr] at h
      dsimp only at h
      cases hmp : mp st row2 with
      | none => rw [hmp] at h; exact absurd h (by simp)
      | some p2 =>
        rw [hmp] at h
        dsimp only at h
        by_cases hq : getFillQuantity cfg st (rv row2) = 0
        · rw [if_pos hq] at h
          exact absurd h (by simp)
        · rw [if_neg hq] at h
          obtain ⟨hr, hp, hqq⟩ : row2 = row ∧ p2 = p ∧
              getFillQuantity cfg st (rv row2) = q := by
            simpa [Prod.ext_iff] using h
          subst hr
          subst hp
          exact ⟨ht, rfl, hmp, hqq.symm, hqq ▸ hq⟩

theorem normalStep_of_none {ρ : Type} {fr : String → Option ρ}
    {mp : OrderState → ρ → Option ℚ} {rv : ρ → Option ℚ}
    {acc : PassAcc} {e : String × OrderState}
    (h : normalDecision acc.broker.config fr mp rv e.2 = none) :
    normalStep fr mp rv acc e = acc := by
  unfold normalStep
  rw [h]

theorem normalStep_of_some {ρ : Type} {fr : String → Option ρ}
    {mp : OrderState → ρ → Option ℚ} {rv : ρ → Option ℚ}
    {acc : PassAcc} {e : String × OrderState} {row : ρ} {p q : ℚ}
    (h : normalDecision acc.broker.config fr mp rv e.2 = some (row, p, q)) :
    (normalStep fr mp rv acc e).updated =
      acc.updated ++ [fillOrderState e.2 q acc.broker.now] ∧
    (normalStep fr mp rv acc e).filled =
      acc.filled ++ [(fillWithSlippage acc.broker.config acc.broker.position
        acc.broker.orderIdCounter acc.broker.now e.2 p q (rv row)).1] := by
  unfold normalStep
  rw [h]
  exact ⟨rfl, rfl⟩

theorem normalStep_filled_mem {ρ : Type} (fr : String → Option ρ)
    (mp : OrderState → ρ → Option ℚ) (rv : ρ → Option ℚ)
    (acc : PassAcc) (e : String × OrderState) (f : Fill)
    (h : f ∈ (normalStep fr mp rv acc e).filled) :
    f ∈ acc.filled ∨
      (f.orderId = e.2.id ∧
        ¬ (e.2.type ≠ OrderType.MARKET ∧ e.2.type ≠ OrderType.LIMIT) ∧
        ∃ row, fr e.2.symbol = some row ∧ (mp e.2 row).isSome) := by
  cases hd : normalDecision acc.broker.config fr mp rv e.2 with
  | none =>
    rw [normalStep_of_none hd] at h
    exact Or.inl h
  | some t =>
    obtain ⟨row, p, q⟩ := t
    obtain ⟨ht, hfr, hmp, _, _⟩ := normalDecision_some _ _ _ _ _ _ _ _ hd
    rw [(normalStep_of_some hd).2] at h
    rcases List.mem_append.mp h with h | h
    · exact Or.inl h
    · right
      have he := List.mem_singleton.mp h
      refine ⟨?_, ht, row, hfr, by rw [hmp]; rfl⟩
      rw [he, fillWithSlippage_fst_orderId]

theorem normalPass_filled_from {ρ : Type} (fr : String → Option ρ)
    (mp : OrderState → ρ → Option ℚ) (rv : ρ → Option ℚ) :
    ∀ (l : List (String × OrderState)) (acc : PassAcc) (f : Fill),
      f ∈ (l.foldl (normalStep fr mp rv) acc).filled →
      f ∈ acc.filled ∨ ∃ e ∈ l, f.orderId = e.2.id ∧
        ¬ (e.2.type ≠ OrderType.MARKET ∧ e.2.type ≠ OrderType.LIMIT) ∧
        ∃ row, fr e.2.symbol = some row ∧ (mp e.2 row).isSome := by
  intro l
  induction l with
  | nil => intro acc f h; exact Or.inl h
  | cons e rest ih =>
    intro acc f h
    rw [List.foldl_cons] at h
    rcases ih _ f h with h2 | ⟨e', he', hp⟩
    · rcases normalStep_filled_mem fr mp rv acc e f h2 with h3 | h3
      · exact Or.inl h3
      · exact Or.inr ⟨e, List.mem_cons_self _ _, h3⟩
    · exact Or.inr ⟨e', List.mem_cons_of_mem _ he', hp⟩

/-! ## C3: bar-mode matching semantics -/

/-- C3: against a bar, a MARKET order matches at the bar open price; a
LIMIT BUY with positive limit price matches exactly when the bar low is at
or under the limit and then at the better of the limit and the open; a
LIMIT SELL symmetrically against the bar high; and every fill produced by
the bar fill pass stems from an entry whose row was found and whose match
condition held, so unmatched orders produce no fill. -/
theorem claimC3_bar_matching :
    (∀ (st : OrderState) (c : CandleStick), st.type = OrderType.MARKET →
      getMatchPriceBar st c = some c.openPrice) ∧
    (∀ (st : OrderState) (c : CandleStick) (p : ℚ), st.type = OrderType.LIMIT →
      st.price = some p → 0 < p →
      (st.side = Side.BUY →
        getMatchPriceBar st c =
          if c.low ≤ p then some (min p c.openPrice) else none) ∧
      (st.side = Side.SELL →
        getMatchPriceBar st c =
          if c.high ≥ p then some (max p c.openPrice) else none)) ∧
    (∀ (b : Broker) (candles : List CandleStick) (f : Fill),
      f ∈ (processNormalOrdersBar b candles).filled →
      ∃ e ∈ b.openOrders, f.orderId = e.2.id ∧
        (e.2.type = OrderType.MARKET ∨ e.2.type = OrderType.LIMIT) ∧
        ∃ c ∈ candles, c.symbol = e.2.symbol ∧
          (getMatchPriceBar e.2 c).isSome) := by
  refine ⟨?_, ?_, ?_⟩
  · intro st c hty
    simp [getMatchPriceBar, hty]
  · intro st c p hty hp hp0
    have htr : truthyQ (some p) = true := by
      simp [truthyQ, ne_of_gt hp0]
    constructor
    · intro hside
      simp [getMatchPriceBar, hty, hside, hp, htr]
    · intro hside
      simp [getMatchPriceBar, hty, hside, hp, htr]
  · intro b candles f h
    unfold processNormalOrdersBar at h
    rcases normalPass_filled_from _ _ _ b.openOrders _ f h with h | ⟨e, he, hid, ht, row, hfr, hmp⟩
    · exact absurd h (List.not_mem_nil f)
    · refine ⟨e, he, hid, ?_, row, List.mem_of_find?_eq_some hfr, ?_, hmp⟩
      · by_cases h1 : e.2.type = OrderType.MARKET
        · exact Or.inl h1
        · by_cases h2 : e.2.type = OrderType.LIMIT
          · exact Or.inr h2
          · exact absurd ⟨h1, h2⟩ ht
      · have := List.find?_some hfr
        simpa using this

def barX : CandleStick :=
  { symbol := "X", openPrice := 100, high := 101, low := 98, close := 100,
    volume := 1000 }

def ordLim : Order :=
  { id := "o2", symbol := "X", side := Side.BUY, effect := Effect.OPEN_LONG,
    type := OrderType.LIMIT, quantity := 5, price := some 99, stopPrice := none }

/-- C3 witness: a MARKET order matches barX at its open, and a LIMIT BUY
at 99 matches barX (low 98) at min 99 100. -/
theorem claimC3_witness :
    getMatchPriceBar (acceptOrder ord1) barX = some barX.openPrice ∧
    getMatchPriceBar (acceptOrder ordLim) barX =
      (if barX.low ≤ (99 : ℚ) then some (min 99 barX.openPrice) else none) :=
  ⟨claimC3_bar_matching.1 (acceptOrder ord1) barX rfl,
    (claimC3_bar_matching.2.1 (acceptOrder ordLim) barX 99 rfl rfl
      (by norm_num)).1 rfl⟩

/-! ## Further map lemmas -/

theorem mapGet_mapReplace_ne (m : List (String × β)) (k k2 : String) (v : β)
    (h : ¬ k = k2) :
    mapGet (m.map (fun e => if e.1 = k then (k, v) else e)) k2 = mapGet m k2 := by
  induction m with
  | nil => rfl
  | cons e rest ih =>
    rw [List.map_cons, mapGet_cons, mapGet_cons]
    by_cases he : e.1 = k
    · rw [if_pos he]
      have h1 : ¬ ((k, v).1 = k2) := by simpa using h
      rw [if_neg h1, if_neg (by rw [he]; exact h)]
      exact ih
    · rw [if_neg he]
      by_cases he2 : e.1 = k2
      · rw [if_pos he2, if_pos he2]
      · rw [if_neg he2, if_neg he2]
        exact ih

theorem mapGet_mapReplace_self (m : List (String × β)) (k : String) (v : β)
    (hf : (m.find? (fun e => e.1 = k)).isSome) :
    mapGet (m.map (fun e => if e.1 = k then (k, v) else e)) k = some v := by
  induction m with
  | nil => simp at hf
  | cons e rest ih =>
    rw [List.map_cons, mapGet_cons]
    by_cases he : e.1 = k
    · rw [if_pos he]
      simp
    · rw [if_neg he]
      simp only [he, if_false]
      apply ih
      rw [List.find?_cons] at hf
      simpa [he] using hf

theorem mapGet_append_single_ne (m : List (String × β)) (k k2 : String) (v : β)
    (h : ¬ k = k2) : mapGet (m ++ [(k, v)]) k2 = mapGet m k2 := by
  induction m with
  | nil =>
    rw [List.nil_append, mapGet_cons]
    have h1 : ¬ ((k, v).1 = k2) := by simpa using h
    rw [if_neg h1]
  | cons e rest ih =>
    rw [List.cons_append, mapGet_cons, mapGet_cons]
    by_cases he2 : e.1 = k2
    · rw [if_pos he2, if_pos he2]
    · rw [if_neg he2, if_neg he2]
      exact ih

theorem mapGet_mapSet_ne (m : List (String × β)) (k k2 : String) (v : β)
    (h : k ≠ k2) : mapGet (mapSet m k v) k2 = mapGet m k2 := by
  unfold mapSet
  by_cases hf : (m.find? (fun e => e.1 = k)).isSome
  · rw [if_pos hf]
    exact mapGet_mapReplace_ne m k k2 v h
  · rw [if_neg hf]
    exact mapGet_append_single_ne m k k2 v h

theorem mapGet_mapSet_self (m : List (String × β)) (k : String) (v : β) :
    mapGet (mapSet m k v) k = some v := by
  unfold mapSet
  by_cases hf : (m.find? (fun e => e.1 = k)).isSome
  · rw [if_pos hf]
    exact mapGet_mapReplace_self m k v hf
  · rw [if_neg hf]
    have hnone : mapGet m k = none := by
      unfold mapGet
      cases hc : m.find? (fun e => e.1 = k) with
      | none => rfl
      | some e => rw [hc] at hf; simp at hf
    exact mapGet_append_right m k v hnone

theorem mapGet_some_mem (m : List (String × β)) (k : String) (v : β)
    (h : mapGet m k = some v) : (k, v) ∈ m := by
  induction m with
  | nil => simp [mapGet] at h
  | cons e rest ih =>
    rw [mapGet_cons] at h
    by_cases he : e.1 = k
    · rw [if_pos he] at h
      have hv : e.2 = v := Option.some.inj h
      have : (k, v) = e := by
        obtain ⟨e1, e2⟩ := e
        simp only at he hv
        rw [he, hv]
      exact List.mem_cons.mpr (Or.inl this)
    · rw [if_neg he] at h
      exact List.mem_cons_of_mem _ (ih h)

/-! ## Stop-pass lemmas -/

theorem stopStep_conv_mono (now : ℤ) (ft : OrderState → Option Bool)
    (acc : List (String × OrderState) × List OrderState)
    (e : String × OrderState) (x : OrderState) (h : x ∈ acc.2) :
    x ∈ (stopStep now ft acc e).2 := by
  unfold stopStep
  by_cases ht : e.2.type ≠ OrderType.STOP ∧ e.2.type ≠ OrderType.STOP_LIMIT
  · rw [if_pos ht]; exact h
  · rw [if_neg ht]
    cases hf : ft e.2 with
    | none => exact h
    | some trig =>
      cases trig with
      | false => exact h
      | true =>
        simp only [if_true, reduceIte]
        exact List.mem_append_left _ h

theorem stopStep_mapGet_other (now : ℤ) (ft : OrderState → Option Bool)
    (acc : List (String × OrderState) × List OrderState)
    (e : String × OrderState) (id : String) (h : e.1 ≠ id) :
    mapGet (stopStep now ft acc e).1 id = mapGet acc.1 id := by
  unfold stopStep
  by_cases ht : e.2.type ≠ OrderType.STOP ∧ e.2.type ≠ OrderType.STOP_LIMIT
  · rw [if_pos ht]
  · rw [if_neg ht]
    cases hf : ft e.2 with
    | none => rfl
    | some trig =>
      cases trig with
      | false => rfl
      | true =>
        simp only [if_true, reduceIte]
        exact mapGet_mapSet_ne _ _ _ _ h

theorem stopPass_preserve (now : ℤ) (ft : OrderState → Option Bool) :
    ∀ (l : List (String × OrderState))
      (acc : List (String × OrderState) × List OrderState) (id : String),
      (∀ e ∈ l, e.1 ≠ id) →
      mapGet (l.foldl (stopStep now ft) acc).1 id = mapGet acc.1 id ∧
      (∀ x ∈ acc.2, x ∈ (l.foldl (stopStep now ft) acc).2) := by
  intro l
  induction l with
  | nil => intro acc id _; exact ⟨rfl, fun x hx => hx⟩
  | cons e rest ih =>
    intro acc id hne
    rw [List.foldl_cons]
    have hehd : e.1 ≠ id := hne e (List.mem_cons_self _ _)
    have hrest : ∀ e2 ∈ rest, e2.1 ≠ id :=
      fun e2 he2 => hne e2 (List.mem_cons_of_mem _ he2)
    obtain ⟨h1, h2⟩ := ih (stopStep now ft acc e) id hrest
    refine ⟨by rw [h1, stopStep_mapGet_other now ft acc e id hehd], ?_⟩
    intro x hx
    exact h2 x (stopStep_conv_mono now ft acc e x hx)

/-- The conversion performed on a triggered stop entry: the snapshot joins
the conversion list and the map entry now holds the converted state, as
long as no later entry shares the key. -/
theorem stopPass_converts (now : ℤ) (ft : OrderState → Option Bool) :
    ∀ (l : List (String × OrderState))
      (acc : List (String × OrderState) × List OrderState)
      (id : String) (st : OrderState),
      (l.map (fun e => e.1)).Nodup →
      (id, st) ∈ l →
      ¬ (st.type ≠ OrderType.STOP ∧ st.type ≠ OrderType.STOP_LIMIT) →
      ft st = some true →
      mapGet (l.foldl (stopStep now ft) acc).1 id = some (convState now st) ∧
      convState now st ∈ (l.foldl (stopStep now ft) acc).2 := by
  intro l
  induction l with
  | nil => intro acc id st _ hmem; simp at hmem
  | cons e rest ih =>
    intro acc id st hnd hmem hty htrig
    rw [List.foldl_cons]
    rcases List.mem_cons.mp hmem with heq | hmem2
    · have hid : e.1 = id := by rw [← heq]
      have hkeys : ∀ e2 ∈ rest, e2.1 ≠ id := by
        intro e2 he2 hcon
        rw [List.map_cons, List.nodup_cons] at hnd
        apply hnd.1
        rw [hid, ← hcon]
        exact List.mem_map_of_mem (fun x => x.1) he2
      obtain ⟨h1, h2⟩ := stopPass_preserve now ft rest (stopStep now ft acc e) id hkeys
      have hstep : stopStep now ft acc e =
          (mapSet acc.1 id (convState now st), acc.2 ++ [convState now st]) := by
        unfold stopStep
        rw [← heq]
        dsimp only
        rw [if_neg hty, htrig]
        simp
      constructor
      · rw [h1, hstep, mapGet_mapSet_self]
      · refine h2 _ ?_
        rw [hstep]
        exact List.mem_append_right _ (List.mem_singleton.mpr rfl)
    · rw [List.map_cons, List.nodup_cons] at hnd
      exact ih (stopStep now ft acc e) id st hnd.2 hmem2 hty htrig

/-! ## Normal-pass invariance and existence lemmas -/

theorem normalStep_broker_config {ρ : Type} (fr : String → Option ρ)
    (mp : OrderState → ρ → Option ℚ) (rv : ρ → Option ℚ)
    (acc : PassAcc) (e : String × OrderState) :
    (normalStep fr mp rv acc e).broker.config = acc.broker.config := by
  unfold normalStep
  cases hd : normalDecision acc.broker.config fr mp rv e.2 with
  | none => rfl
  | some t =>
    obtain ⟨row, p, q⟩ := t
    dsimp only
    by_cases hs : (fillWithSlippage acc.broker.config acc.broker.position
        acc.broker.orderIdCounter acc.broker.now e.2 p q (rv row)).2.1.status =
        OrderStatus.FILLED <;> simp [hs]

theorem normalStep_broker_now {ρ : Type} (fr : String → Option ρ)
    (mp : OrderState → ρ → Option ℚ) (rv : ρ → Option ℚ)
    (acc : PassAcc) (e : String × OrderState) :
    (normalStep fr mp rv acc e).broker.now = acc.broker.now := by
  unfold normalStep
  cases hd : normalDecision acc.broker.config fr mp rv e.2 with
  | none => rfl
  | some t =>
    obtain ⟨row, p, q⟩ := t
    dsimp only
    by_cases hs : (fillWithSlippage acc.broker.config acc.broker.position
        acc.broker.orderIdCounter acc.broker.now e.2 p q (rv row)).2.1.status =
        OrderStatus.FILLED <;> simp [hs]

theorem normalStep_mem_mono {ρ : Type} (fr : String → Option ρ)
    (mp : OrderState → ρ → Option ℚ) (rv : ρ → Option ℚ)
    (acc : PassAcc) (e : String × OrderState) :
    (∀ x ∈ acc.updated, x ∈ (normalStep fr mp rv acc e).updated) ∧
    (∀ f ∈ acc.filled, f ∈ (normalStep fr mp rv acc e).filled) := by
  cases hd : normalDecision acc.broker.config fr mp rv e.2 with
  | none =>
    rw [normalStep_of_none hd]
    exact ⟨fun x hx => hx, fun f hf => hf⟩
  | some t =>
    obtain ⟨row, p, q⟩ := t
    obtain ⟨hu, hf⟩ := normalStep_of_some hd
    rw [hu, hf]
    exact ⟨fun x hx => List.mem_append_left _ hx,
      fun f hf2 => List.mem_append_left _ hf2⟩

theorem normalPass_mem_mono {ρ : Type} (fr : String → Option ρ)
    (mp : OrderState → ρ → Option ℚ) (rv : ρ → Option ℚ) :
    ∀ (l : List (String × OrderState)) (acc : PassAcc),
      (∀ x ∈ acc.updated, x ∈ (l.foldl (normalStep fr mp rv) acc).updated) ∧
      (∀ f ∈ acc.filled, f ∈ (l.foldl (normalStep fr mp rv) acc).filled) := by
  intro l
  induction l with
  | nil => intro acc; exact ⟨fun x hx => hx, fun f hf => hf⟩
  | cons e rest ih =>
    intro acc
    rw [List.foldl_cons]
    obtain ⟨hu1, hf1⟩ := normalStep_mem_mono fr mp rv acc e
    obtain ⟨hu2, hf2⟩ := ih (normalStep fr mp rv acc e)
    exact ⟨fun x hx => hu2 x (hu1 x hx), fun f hf => hf2 f (hf1 f hf)⟩

/-- An entry of the pass list that passes the guard chain produces its
fill and its post-fill state in the pass output. -/
theorem normalPass_fills_entry {ρ : Type} (fr : String → Option ρ)
    (mp : OrderState → ρ → Option ℚ) (rv : ρ → Option ℚ) :
    ∀ (l : List (String × OrderState)) (acc : PassAcc) (id : String)
      (st : OrderState) (row : ρ) (p q : ℚ),
      (id, st) ∈ l →
      normalDecision acc.broker.config fr mp rv st = some (row, p, q) →
      (∃ f ∈ (l.foldl (normalStep fr mp rv) acc).filled, f.orderId = st.id) ∧
      fillOrderState st q acc.broker.now ∈
        (l.foldl (normalStep fr mp rv) acc).updated := by
  intro l
  induction l with
  | nil => intro acc id st row p q hmem; simp at hmem
  | cons e rest ih =>
    intro acc id st row p q hmem hdec
    rw [List.foldl_cons]
    rcases List.mem_cons.mp hmem with heq | hmem2
    · have he2 : e.2 = st := by rw [← heq]
      have hdec2 : normalDecision acc.broker.config fr mp rv e.2 =
          some (row, p, q) := by rw [he2]; exact hdec
      obtain ⟨hu, hf⟩ := normalStep_of_some hdec2
      obtain ⟨hu2, hf2⟩ := normalPass_mem_mono fr mp rv rest
        (normalStep fr mp rv acc e)
      constructor
      · refine ⟨(fillWithSlippage acc.broker.config acc.broker.position
          acc.broker.orderIdCounter acc.broker.now e.2 p q (rv row)).1,
          hf2 _ ?_, ?_⟩
        · rw [hf]
          exact List.mem_append_right _ (List.mem_singleton.mpr rfl)
        · rw [fillWithSlippage_fst_orderId, he2]
      · refine hu2 _ ?_
        rw [hu, he2]
        exact List.mem_append_right _ (List.mem_singleton.mpr rfl)
    · have hcfg : (normalStep fr mp rv acc e).broker.config = acc.broker.config :=
        normalStep_broker_config fr mp rv acc e
      have hnow : (normalStep fr mp rv acc e).broker.now = acc.broker.now :=
        normalStep_broker_now fr mp rv acc e
      have := ih (normalStep fr mp rv acc e) id st row p q hmem2
        (by rw [hcfg]; exact hdec)
      rw [hnow] at this
      exact this

/-! ## C10: stop conversion then fill in the same call -/

theorem getMatchPriceTick_market (o : OrderState) (q : MarketQuote)
    (h : o.type = OrderType.MARKET) :
    getMatchPriceTick o q =
      some (if o.side = Side.BUY then q.ask.getD q.price else q.bid.getD q.price) := by
  unfold getMatchPriceTick
  rw [h]

theorem getFillQuantity_noSlippage (cfg : BacktestConfig) (st : OrderState)
    (vol : Option ℚ) (h : cfg.slippage = none) :
    getFillQuantity cfg st vol = st.remainingQuantity := by
  simp [getFillQuantity, h]

theorem tickTrigger_find (quotes : List MarketQuote) (st : OrderState)
    (x : Bool) (h : tickTrigger quotes st = some x) :
    ∃ q, quotes.find? (fun q => q.symbol = st.symbol) = some q := by
  unfold tickTrigger at h
  cases hf : quotes.find? (fun q => q.symbol = st.symbol) with
  | none => rw [hf] at h; exact absurd h (by simp)
  | some q => exact ⟨q, rfl⟩

/-- C10: on a tick batch, processOpenOrders runs the stop-conversion pass
first and hands the converted open-orders map to the fill pass of the same
call, returning the conversion snapshots followed by the fill-pass
updates; a triggered STOP or STOP_LIMIT order is converted in place (its
snapshot enters the conversion list and the map now holds the converted
state), and a triggered STOP order whose fill nothing blocks (no slippage
config, nonzero remainder) produces a fill and its FILLED post-state
against that same batch. -/
theorem claimC10_stop_converts_then_fills :
    ∀ (b : Broker) (r0 : Row) (rest : List Row) (id : String) (st : OrderState),
      r0.openPrice = none →
      KeysNodup b.openOrders →
      (id, st) ∈ b.openOrders →
      ¬ (st.type ≠ OrderType.STOP ∧ st.type ≠ OrderType.STOP_LIMIT) →
      tickTrigger ((r0 :: rest).map Row.toQuote) st = some true →
      (processOpenOrders b (r0 :: rest) =
        some ((processNormalOrdersTick
            { b with openOrders :=
              (processStopOrdersTick b ((r0 :: rest).map Row.toQuote)).1 }
            ((r0 :: rest).map Row.toQuote)).broker,
          { updated := (processStopOrdersTick b ((r0 :: rest).map Row.toQuote)).2 ++
              (processNormalOrdersTick
                { b with openOrders :=
                  (processStopOrdersTick b ((r0 :: rest).map Row.toQuote)).1 }
                ((r0 :: rest).map Row.toQuote)).updated,
            filled := (processNormalOrdersTick
              { b with openOrders :=
                (processStopOrdersTick b ((r0 :: rest).map Row.toQuote)).1 }
              ((r0 :: rest).map Row.toQuote)).filled })) ∧
      convState b.now st ∈
        (processStopOrdersTick b ((r0 :: rest).map Row.toQuote)).2 ∧
      mapGet (processStopOrdersTick b ((r0 :: rest).map Row.toQuote)).1 id =
        some (convState b.now st) ∧
      (st.type = OrderType.STOP → b.config.slippage = none →
        st.remainingQuantity ≠ 0 →
        (∃ f ∈ (processNormalOrdersTick
            { b with openOrders :=
              (processStopOrdersTick b ((r0 :: rest).map Row.toQuote)).1 }
            ((r0 :: rest).map Row.toQuote)).filled, f.orderId = st.id) ∧
        fillOrderState (convState b.now st) st.remainingQuantity b.now ∈
          (processNormalOrdersTick
            { b with openOrders :=
              (processStopOrdersTick b ((r0 :: rest).map Row.toQuote)).1 }
            ((r0 :: rest).map Row.toQuote)).updated ∧
        (fillOrderState (convState b.now st) st.remainingQuantity b.now).status =
          OrderStatus.FILLED) := by
  intro b r0 rest id st hr0 hnd hmem hty htrig
  have hshape : processOpenOrders b (r0 :: rest) =
      some ((processNormalOrdersTick
          { b with openOrders :=
            (processStopOrdersTick b ((r0 :: rest).map Row.toQuote)).1 }
          ((r0 :: rest).map Row.toQuote)).broker,
        { updated := (processStopOrdersTick b ((r0 :: rest).map Row.toQuote)).2 ++
            (processNormalOrdersTick
              { b with openOrders :=
                (processStopOrdersTick b ((r0 :: rest).map Row.toQuote)).1 }
              ((r0 :: rest).map Row.toQuote)).updated,
          filled := (processNormalOrdersTick
            { b with openOrders :=
              (processStopOrdersTick b ((r0 :: rest).map Row.toQuote)).1 }
            ((r0 :: rest).map Row.toQuote)).filled }) := by
    unfold processOpenOrders
    dsimp only
    rw [hr0]
    rfl
  obtain ⟨hget, hconv⟩ := stopPass_converts b.now
    (tickTrigger ((r0 :: rest).map Row.toQuote)) b.openOrders
    (b.openOrders, []) id st hnd hmem hty htrig
  refine ⟨hshape, hconv, hget, ?_⟩
  intro hstop hslip hrem
  have hmem2 : (id, convState b.now st) ∈
      (processStopOrdersTick b ((r0 :: rest).map Row.toQuote)).1 :=
    mapGet_some_mem _ _ _ hget
  obtain ⟨q0, hq0⟩ := tickTrigger_find ((r0 :: rest).map Row.toQuote) st true htrig
  have htyconv : (convState b.now st).type = OrderType.MARKET := by
    simp [convState, hstop]
  have hdec : normalDecision b.config
      (fun sym => ((r0 :: rest).map Row.toQuote).find? (fun q => q.symbol = sym))
      getMatchPriceTick (fun q => q.volume) (convState b.now st) =
      some (q0,
        (if (convState b.now st).side = Side.BUY then q0.ask.getD q0.price
          else q0.bid.getD q0.price),
        st.remainingQuantity) := by
    unfold normalDecision
    rw [if_neg (by rw [htyconv]; simp)]
    dsimp only
    rw [show (convState b.now st).symbol = st.symbol from rfl, hq0]
    dsimp only
    rw [getMatchPriceTick_market _ _ htyconv]
    dsimp only
    have hfq : getFillQuantity b.config (convState b.now st) q0.volume =
        st.remainingQuantity := by
      rw [getFillQuantity_noSlippage _ _ _ hslip]
      rfl
    rw [hfq, if_neg hrem]
  have hfill := normalPass_fills_entry
    (fun sym => ((r0 :: rest).map Row.toQuote).find? (fun q => q.symbol = sym))
    getMatchPriceTick (fun q => q.volume)
    (processStopOrdersTick b ((r0 :: rest).map Row.toQuote)).1
    { broker := { b with openOrders :=
        (processStopOrdersTick b ((r0 :: rest).map Row.toQuote)).1 },
      updated := [], filled := [] }
    id (convState b.now st) q0 _ _ hmem2 hdec
  refine ⟨?_, ?_, ?_⟩
  · obtain ⟨f, hf, hfid⟩ := hfill.1
    exact ⟨f, hf, hfid⟩
  · exact hfill.2
  · simp [fillOrderState, convState]

def stStop : OrderState :=
  acceptOrder
    { id := "o4", symbol := "X", side := Side.BUY, effect := Effect.OPEN_LONG,
      type := OrderType.STOP, quantity := 10, price := none, stopPrice := some 100 }

def brokerStop : Broker :=
  { mkBroker cfg0 with openOrders := [("o4", stStop)], openSymbols := [("X", 1)] }

def rowTick : Row :=
  { symbol := "X", price := 101, bid := none, ask := none, volume := none,
    openPrice := none, high := none, low := none, close := none }

/-- C10 witness: a broker holding one open STOP BUY at 100 against a tick
row at price 101 converts the order (snapshot in the conversion list, map
entry converted) and fills it in the same processOpenOrders call. -/
theorem claimC10_witness :
    convState brokerStop.now stStop ∈
      (processStopOrdersTick brokerStop ([rowTick].map Row.toQuote)).2 ∧
    (∃ f ∈ (processNormalOrdersTick
        { brokerStop with openOrders :=
          (processStopOrdersTick brokerStop ([rowTick].map Row.toQuote)).1 }
        ([rowTick].map Row.toQuote)).filled, f.orderId = stStop.id) ∧
    (fillOrderState (convState brokerStop.now stStop) stStop.remainingQuantity
      brokerStop.now).status = OrderStatus.FILLED := by
  have h := claimC10_stop_converts_then_fills brokerStop rowTick [] "o4" stStop
    rfl (by unfold KeysNodup; decide) (by decide) (by decide) (by decide)
  have h2 := h.2.2.2 rfl rfl (by decide)
  exact ⟨h.2.1, h2.1, h2.2.2⟩

/-! ## C2: counting lemmas -/

/-- Refcount read of the openSymbols map: absent entries read as 0. -/
def refcount (m : List (String × ℤ)) (s : String) : ℤ :=
  (mapGet m s).getD 0

/-- Number of openOrders entries whose symbol is s. -/
def countSym (oo : List (String × OrderState)) (s : String) : ℕ :=
  (oo.filter (fun e => e.2.symbol = s)).length

theorem mapGet_mapDelete_self (m : List (String × β)) (k : String) :
    mapGet (mapDelete m k) k = none := by
  rw [mapGet_eq_none_iff]
  intro e he
  have := List.of_mem_filter he
  simpa using this

theorem mapGet_mapDelete_ne (m : List (String × β)) (k k2 : String)
    (h : k ≠ k2) : mapGet (mapDelete m k) k2 = mapGet m k2 := by
  induction m with
  | nil => rfl
  | cons e rest ih =>
    unfold mapDelete
    rw [List.filter_cons]
    by_cases he : e.1 = k
    · have : ¬ (decide ¬ (e.1 = k)) = true := by simp [he]
      rw [if_neg this]
      rw [mapGet_cons, if_neg (by rw [he]; exact h)]
      exact ih
    · have : (decide ¬ (e.1 = k)) = true := by simp [he]
      rw [if_pos this]
      rw [mapGet_cons, mapGet_cons]
      by_cases he2 : e.1 = k2
      · rw [if_pos he2, if_pos he2]
      · rw [if_neg he2, if_neg he2]
        exact ih

theorem mapGet_of_mem_nodup (m : List (String × β)) (k : String) (v : β)
    (hnd : KeysNodup m) (hmem : (k, v) ∈ m) : mapGet m k = some v := by
  induction m with
  | nil => simp at hmem
  | cons e rest ih =>
    unfold KeysNodup at hnd
    rw [List.map_cons, List.nodup_cons] at hnd
    rw [mapGet_cons]
    rcases List.mem_cons.mp hmem with heq | hmem2
    · rw [← heq]
      simp
    · by_cases he : e.1 = k
      · exfalso
        apply hnd.1
        rw [he]
        exact List.mem_map_of_mem (fun x => x.1) hmem2
      · rw [if_neg he]
        exact ih hnd.2 hmem2

theorem refcount_inc (m : List (String × ℤ)) (sym s : String) :
    refcount (incOpenSymbols m sym) s =
      refcount m s + (if sym = s then 1 else 0) := by
  unfold refcount incOpenSymbols
  by_cases h : sym = s
  · rw [if_pos h, h, mapGet_mapSet_self]
    rfl
  · rw [if_neg h, mapGet_mapSet_ne m sym s _ h, add_zero]

theorem refcount_dec (m : List (String × ℤ)) (sym s : String) :
    refcount (decOpenSymbols m sym) s =
      refcount m s - (if sym = s then 1 else 0) := by
  unfold refcount decOpenSymbols
  by_cases hc : (mapGet m sym).getD 0 - 1 = 0
  · rw [if_pos hc]
    by_cases h : sym = s
    · rw [if_pos h, ← h, mapGet_mapDelete_self]
      simp only [Option.getD_none]
      omega
    · rw [if_neg h, mapGet_mapDelete_ne _ sym s h, mapGet_mapSet_ne m sym s _ h,
        sub_zero]
  · rw [if_neg hc]
    by_cases h : sym = s
    · rw [if_pos h, h, mapGet_mapSet_self]
      rfl
    · rw [if_neg h, mapGet_mapSet_ne m sym s _ h, sub_zero]

theorem countSym_append_single (oo : List (String × OrderState)) (id : String)
    (st : OrderState) (s : String) :
    countSym (oo ++ [(id, st)]) s =
      countSym oo s + (if st.symbol = s then 1 else 0) := by
  unfold countSym
  rw [List.filter_append, List.length_append]
  congr 1
  by_cases h : st.symbol = s <;> simp [h]

theorem mapDelete_of_absent (m : List (String × β)) (k : String)
    (h : ∀ e ∈ m, e.1 ≠ k) : mapDelete m k = m := by
  unfold mapDelete
  apply List.filter_eq_self.mpr
  intro e he
  simpa using h e he

theorem mapReplace_of_absent (m : List (String × β)) (k : String) (v : β)
    (h : ∀ e ∈ m, e.1 ≠ k) :
    m.map (fun e => if e.1 = k then (k, v) else e) = m := by
  induction m with
  | nil => rfl
  | cons e rest ih =>
    rw [List.map_cons, if_neg (h e (List.mem_cons_self _ _)),
      ih (fun e2 he2 => h e2 (List.mem_cons_of_mem _ he2))]

theorem keys_ne_of_mapGet_none (m : List (String × β)) (k : String)
    (h : mapGet m k = none) : ∀ e ∈ m, e.1 ≠ k :=
  (mapGet_eq_none_iff m k).mp h

theorem countSym_mapDelete (oo : List (String × OrderState)) (id : String)
    (v : OrderState) (s : String) (hnd : KeysNodup oo)
    (hget : mapGet oo id = some v) :
    countSym oo s = countSym (mapDelete oo id) s +
      (if v.symbol = s then 1 else 0) := by
  induction oo with
  | nil => simp [mapGet] at hget
  | cons e rest ih =>
    unfold KeysNodup at hnd
    rw [List.map_cons, List.nodup_cons] at hnd
    rw [mapGet_cons] at hget
    by_cases he : e.1 = id
    · rw [if_pos he] at hget
      have hv : e.2 = v := Option.some.inj hget
      have habs : ∀ e2 ∈ rest, e2.1 ≠ id := by
        intro e2 he2 hcon
        apply hnd.1
        rw [he, ← hcon]
        exact List.mem_map_of_mem (fun x => x.1) he2
      have hdel : mapDelete (e :: rest) id = rest := by
        unfold mapDelete
        rw [List.filter_cons]
        have : ¬ (decide ¬ (e.1 = id)) = true := by simp [he]
        rw [if_neg this]
        exact List.filter_eq_self.mpr (fun e2 he2 => by simpa using habs e2 he2)
      rw [hdel]
      unfold countSym
      rw [List.filter_cons]
      by_cases hs : e.2.symbol = s
      · have hvs : v.symbol = s := hv ▸ hs
        simp [hs, hvs]
      · have hvs : ¬ (v.symbol = s) := by rw [← hv]; exact hs
        simp [hs, hvs]
    · rw [if_neg he] at hget
      have hdel : mapDelete (e :: rest) id = e :: mapDelete rest id := by
        unfold mapDelete
        rw [List.filter_cons]
        have : (decide ¬ (e.1 = id)) = true := by simp [he]
        rw [if_pos this]
      rw [hdel]
      unfold countSym
      rw [List.filter_cons, List.filter_cons]
      have := ih hnd.2 hget
      unfold countSym at this
      by_cases hs : e.2.symbol = s
      · simp only [hs]
        simp only [decide_True, if_true, List.length_cons]
        omega
      · simp only [hs]
        simp only [decide_False, Bool.false_eq_true, if_false]
        omega

theorem countSym_mapSet_sameSymbol (oo : List (String × OrderState))
    (id : String) (v st2 : OrderState) (s : String) (hnd : KeysNodup oo)
    (hget : mapGet oo id = some v) (hsym : st2.symbol = v.symbol) :
    countSym (mapSet oo id st2) s = countSym oo s := by
  have hf : (oo.find? (fun e => e.1 = id)).isSome := by
    unfold mapGet at hget
    cases hc : oo.find? (fun e => e.1 = id) with
    | none => rw [hc] at hget; simp at hget
    | some e => simp
  unfold mapSet
  rw [if_pos hf]
  clear hf
  induction oo with
  | nil => simp [mapGet] at hget
  | cons e rest ih =>
    unfold KeysNodup at hnd
    rw [List.map_cons, List.nodup_cons] at hnd
    rw [mapGet_cons] at hget
    rw [List.map_cons]
    unfold countSym
    rw [List.filter_cons, List.filter_cons]
    by_cases he : e.1 = id
    · rw [if_pos he] at hget
      have hv : e.2 = v := Option.some.inj hget
      rw [if_pos he]
      have habs : ∀ e2 ∈ rest, e2.1 ≠ id := by
        intro e2 he2 hcon
        apply hnd.1
        rw [he, ← hcon]
        exact List.mem_map_of_mem (fun x => x.1) he2
      rw [mapReplace_of_absent rest id st2 habs]
      have hs2 : ((id, st2).2.symbol = s) = (e.2.symbol = s) := by
        rw [hv]
        simp [hsym]
      by_cases hs : e.2.symbol = s
      · simp only [hs2, hs]
        simp only [decide_True, if_true, List.length_cons]
      · simp only [hs2, hs]
        simp only [decide_False, Bool.false_eq_true, if_false]
    · rw [if_neg he] at hget
      rw [if_neg he]
      have := ih hnd.2 hget
      unfold countSym at this
      by_cases hs : e.2.symbol = s
      · simp only [hs]
        simp only [decide_True, if_true, List.length_cons]
        omega
      · simp only [hs]
        simp only [decide_False, Bool.false_eq_true, if_false]
        omega

/-! ## C2: the broker invariant and its preservation -/

/-- The broker bookkeeping invariant: unique keys in both maps, and the
openSymbols refcount of every symbol equals the number of openOrders
entries carrying that symbol. -/
def BrokerInv (b : Broker) : Prop :=
  KeysNodup b.openOrders ∧ KeysNodup b.openSymbols ∧
  ∀ s, refcount b.openSymbols s = (countSym b.openOrders s : ℤ)

theorem mkBroker_inv (cfg : BacktestConfig) : BrokerInv (mkBroker cfg) := by
  refine ⟨by simp [mkBroker, KeysNodup], by simp [mkBroker, KeysNodup], ?_⟩
  intro s
  simp [mkBroker, refcount, countSym, mapGet]

theorem amendState_symbol (st0 : OrderState) (u : PartialOrder) (now : ℤ) :
    (amendState st0 u now).symbol = st0.symbol := by
  unfold amendState
  cases u.quantity <;> cases u.price <;> cases u.stopPrice <;> rfl

theorem submitStep_inv (b : Broker) (o : Order) (h : BrokerInv b) :
    BrokerInv (submitStep b o).1 := by
  obtain ⟨h1, h2, h3⟩ := h
  unfold submitStep
  by_cases hf : (mapGet b.openOrders o.id).isSome
  · simpa [hf] using ⟨h1, h2, h3⟩
  · have hnone : mapGet b.openOrders o.id = none := by
      cases hc : mapGet b.openOrders o.id with
      | none => rfl
      | some v => rw [hc] at hf; simp at hf
    simp only [hf, Bool.false_eq_true, if_false]
    refine ⟨keysNodup_mapSet _ _ _ h1, keysNodup_incOpenSymbols _ _ h2, ?_⟩
    intro s
    rw [mapSet_of_absent _ _ _ hnone]
    rw [refcount_inc, countSym_append_single, h3 s]
    have : ({ acceptOrder o with modified := b.now } : OrderState).symbol =
        o.symbol := rfl
    rw [this]
    by_cases hs : o.symbol = s <;> simp [hs]

theorem amendStep_inv (b : Broker) (u : PartialOrder) (h : BrokerInv b) :
    BrokerInv (amendStep b u).1 := by
  obtain ⟨h1, h2, h3⟩ := h
  unfold amendStep
  cases hget : mapGet b.openOrders u.id with
  | none => exact ⟨h1, h2, h3⟩
  | some st0 =>
    dsimp only
    by_cases hrem : (amendState st0 u b.now).remainingQuantity < 0
    · rw [if_pos hrem]
      refine ⟨keysNodup_mapDelete _ _ h1, keysNodup_decOpenSymbols _ _ h2, ?_⟩
      intro s
      dsimp only
      have hsym : (cancelOrderState (amendState st0 u b.now)).symbol = st0.symbol := by
        show (amendState st0 u b.now).symbol = st0.symbol
        exact amendState_symbol st0 u b.now
      rw [hsym, refcount_dec, h3 s]
      have hcount := countSym_mapDelete b.openOrders u.id st0 s h1 hget
      by_cases hs : st0.symbol = s
      · rw [if_pos hs] at hcount
        rw [if_pos hs]
        omega
      · rw [if_neg hs] at hcount
        rw [if_neg hs]
        omega
    · rw [if_neg hrem]
      refine ⟨keysNodup_mapSet _ _ _ h1, h2, ?_⟩
      intro s
      dsimp only
      rw [countSym_mapSet_sameSymbol b.openOrders u.id st0
        (amendState st0 u b.now) s h1 hget (amendState_symbol st0 u b.now)]
      exact h3 s

theorem cancelStep_inv (b : Broker) (id : String) (h : BrokerInv b) :
    BrokerInv (cancelStep b id).1 := by
  obtain ⟨h1, h2, h3⟩ := h
  unfold cancelStep
  cases hget : mapGet b.openOrders id with
  | none => exact ⟨h1, h2, h3⟩
  | some st0 =>
    dsimp only
    refine ⟨keysNodup_mapDelete _ _ h1, keysNodup_decOpenSymbols _ _ h2, ?_⟩
    intro s
    dsimp only
    rw [refcount_dec, h3 s]
    rw [show (cancelOrderState st0).symbol = st0.symbol from rfl]
    have hcount := countSym_mapDelete b.openOrders id st0 s h1 hget
    by_cases hs : st0.symbol = s
    · rw [if_pos hs] at hcount
      rw [if_pos hs]
      omega
    · rw [if_neg hs] at hcount
      rw [if_neg hs]
      omega

theorem cancelAllOrders_inv (b : Broker) (h : BrokerInv b) :
    BrokerInv (cancelAllOrders b).1 := by
  unfold cancelAllOrders
  by_cases hc : b.openOrders.length = 0
  · simpa [hc] using h
  · simp only [hc, if_false, reduceIte]
    refine ⟨by simp [KeysNodup], by simp [KeysNodup], ?_⟩
    intro s
    simp [refcount, countSym, mapGet]

theorem submitOrder_fst_inv (b : Broker) (orders : List Order)
    (h : BrokerInv b) : BrokerInv (submitOrder b orders).1 := by
  unfold submitOrder
  rw [submitOrder_fold_fst]
  induction orders generalizing b with
  | nil => exact h
  | cons o rest ih =>
    rw [List.foldl_cons]
    exact ih _ (submitStep_inv b o h)

theorem amendOrder_fold_fst (updates : List PartialOrder) :
    ∀ (b : Broker) (l : List OrderState),
      (updates.foldl
        (fun acc u =>
          ((amendStep acc.1 u).1,
            match (amendStep acc.1 u).2 with
            | some st => acc.2 ++ [st]
            | none => acc.2)) (b, l)).1 =
      updates.foldl (fun bb u => (amendStep bb u).1) b := by
  induction updates with
  | nil => intro b l; rfl
  | cons u rest ih => intro b l; exact ih _ _

theorem amendOrder_fst_inv (b : Broker) (updates : List PartialOrder)
    (h : BrokerInv b) : BrokerInv (amendOrder b updates).1 := by
  unfold amendOrder
  rw [amendOrder_fold_fst]
  induction updates generalizing b with
  | nil => exact h
  | cons u rest ih =>
    rw [List.foldl_cons]
    exact ih _ (amendStep_inv b u h)

theorem cancelOrders_fold_fst (ids : List String) :
    ∀ (b : Broker) (l : List OrderState),
      (ids.foldl
        (fun acc id =>
          ((cancelStep acc.1 id).1,
            match (cancelStep acc.1 id).2 with
            | some st => acc.2 ++ [st]
            | none => acc.2)) (b, l)).1 =
      ids.foldl (fun bb id => (cancelStep bb id).1) b := by
  induction ids with
  | nil => intro b l; rfl
  | cons id rest ih => intro b l; exact ih _ _

theorem cancelOrders_fst_inv (b : Broker) (ids : List String)
    (h : BrokerInv b) : BrokerInv (cancelOrders b ids).1 := by
  unfold cancelOrders
  rw [cancelOrders_fold_fst]
  induction ids generalizing b with
  | nil => exact h
  | cons id rest ih =>
    rw [List.foldl_cons]
    exact ih _ (cancelStep_inv b id h)

/-! ## C2: invariance of the matching passes -/

theorem stopStep_map_cases (now : ℤ) (ft : OrderState → Option Bool)
    (acc : List (String × OrderState) × List OrderState)
    (e : String × OrderState) :
    (stopStep now ft acc e).1 = acc.1 ∨
    (stopStep now ft acc e).1 = mapSet acc.1 e.1 (convState now e.2) := by
  unfold stopStep
  by_cases ht : e.2.type ≠ OrderType.STOP ∧ e.2.type ≠ OrderType.STOP_LIMIT
  · rw [if_pos ht]
    exact Or.inl rfl
  · rw [if_neg ht]
    cases hf : ft e.2 with
    | none => exact Or.inl rfl
    | some trig =>
      cases trig with
      | false => exact Or.inl rfl
      | true => exact Or.inr rfl

theorem stopPass_counts (now : ℤ) (ft : OrderState → Option Bool) :
    ∀ (l : List (String × OrderState))
      (acc : List (String × OrderState) × List OrderState),
      KeysNodup acc.1 →
      (l.map (fun e => e.1)).Nodup →
      (∀ e ∈ l, ∃ v, mapGet acc.1 e.1 = some v ∧ v.symbol = e.2.symbol) →
      KeysNodup (l.foldl (stopStep now ft) acc).1 ∧
      (∀ s, countSym (l.foldl (stopStep now ft) acc).1 s = countSym acc.1 s) := by
  intro l
  induction l with
  | nil => intro acc h1 _ _; exact ⟨h1, fun s => rfl⟩
  | cons e rest ih =>
    intro acc h1 hlnd hall
    rw [List.foldl_cons]
    rw [List.map_cons, List.nodup_cons] at hlnd
    obtain ⟨v, hv, hvs⟩ := hall e (List.mem_cons_self _ _)
    have hrest : ∀ e2 ∈ rest, ∃ v2,
        mapGet (stopStep now ft acc e).1 e2.1 = some v2 ∧ v2.symbol = e2.2.symbol := by
      intro e2 he2
      obtain ⟨v2, hv2, hv2s⟩ := hall e2 (List.mem_cons_of_mem _ he2)
      have hne : e.1 ≠ e2.1 := by
        intro hcon
        apply hlnd.1
        rw [hcon]
        exact List.mem_map_of_mem (fun x => x.1) he2
      rcases stopStep_map_cases now ft acc e with hc | hc
      · exact ⟨v2, by rw [hc]; exact hv2, hv2s⟩
      · exact ⟨v2, by rw [hc, mapGet_mapSet_ne _ _ _ _ hne]; exact hv2, hv2s⟩
    have hnd2 : KeysNodup (stopStep now ft acc e).1 := by
      rcases stopStep_map_cases now ft acc e with hc | hc
      · rw [hc]; exact h1
      · rw [hc]; exact keysNodup_mapSet _ _ _ h1
    obtain ⟨hres1, hres2⟩ := ih (stopStep now ft acc e) hnd2 hlnd.2 hrest
    refine ⟨hres1, fun s => ?_⟩
    rw [hres2 s]
    rcases stopStep_map_cases now ft acc e with hc | hc
    · rw [hc]
    · rw [hc]
      exact countSym_mapSet_sameSymbol acc.1 e.1 v (convState now e.2) s h1 hv
        (by rw [show (convState now e.2).symbol = e.2.symbol from rfl, hvs])

theorem normalStep_map_cases {ρ : Type} (fr : String → Option ρ)
    (mp : OrderState → ρ → Option ℚ) (rv : ρ → Option ℚ)
    (acc : PassAcc) (e : String × OrderState) :
    ((normalStep fr mp rv acc e).broker.openOrders = acc.broker.openOrders ∧
      (normalStep fr mp rv acc e).broker.openSymbols = acc.broker.openSymbols) ∨
    ((normalStep fr mp rv acc e).broker.openOrders =
        mapDelete acc.broker.openOrders e.1 ∧
      (normalStep fr mp rv acc e).broker.openSymbols =
        decOpenSymbols acc.broker.openSymbols e.2.symbol) ∨
    (∃ st2 : OrderState, st2.symbol = e.2.symbol ∧
      (normalStep fr mp rv acc e).broker.openOrders =
        mapSet acc.broker.openOrders e.1 st2 ∧
      (normalStep fr mp rv acc e).broker.openSymbols =
        acc.broker.openSymbols) := by
  unfold normalStep
  cases hd : normalDecision acc.broker.config fr mp rv e.2 with
  | none => exact Or.inl ⟨rfl, rfl⟩
  | some t =>
    obtain ⟨row, p, q⟩ := t
    dsimp only
    by_cases hs : (fillWithSlippage acc.broker.config acc.broker.position
        acc.broker.orderIdCounter acc.broker.now e.2 p q (rv row)).2.1.status =
        OrderStatus.FILLED
    · rw [if_pos hs]
      exact Or.inr (Or.inl ⟨rfl, rfl⟩)
    · rw [if_neg hs]
      refine Or.inr (Or.inr ⟨(fillWithSlippage acc.broker.config
        acc.broker.position acc.broker.orderIdCounter acc.broker.now e.2 p q
        (rv row)).2.1, rfl, rfl, rfl⟩)

theorem normalPass_inv {ρ : Type} (fr : String → Option ρ)
    (mp : OrderState → ρ → Option ℚ) (rv : ρ → Option ℚ) :
    ∀ (l : List (String × OrderState)) (acc : PassAcc),
      KeysNodup acc.broker.openOrders →
      KeysNodup acc.broker.openSymbols →
      (l.map (fun e => e.1)).Nodup →
      (∀ e ∈ l, ∃ v, mapGet acc.broker.openOrders e.1 = some v ∧
        v.symbol = e.2.symbol) →
      (∀ s, refcount acc.broker.openSymbols s =
        (countSym acc.broker.openOrders s : ℤ)) →
      KeysNodup (l.foldl (normalStep fr mp rv) acc).broker.openOrders ∧
      KeysNodup (l.foldl (normalStep fr mp rv) acc).broker.openSymbols ∧
      (∀ s, refcount (l.foldl (normalStep fr mp rv) acc).broker.openSymbols s =
        (countSym (l.foldl (normalStep fr mp rv) acc).broker.openOrders s : ℤ)) := by
  intro l
  induction l with
  | nil => intro acc h1 h2 _ _ h3; exact ⟨h1, h2, h3⟩
  | cons e rest ih =>
    intro acc h1 h2 hlnd hall h3
    rw [List.foldl_cons]
    rw [List.map_cons, List.nodup_cons] at hlnd
    obtain ⟨v, hv, hvs⟩ := hall e (List.mem_cons_self _ _)
    rcases normalStep_map_cases fr mp rv acc e with ⟨hoo, hos⟩ | ⟨hoo, hos⟩ |
      ⟨st2, hst2, hoo, hos⟩
    · apply ih (normalStep fr mp rv acc e) (hoo ▸ h1) (hos ▸ h2) hlnd.2
      · intro e2 he2
        obtain ⟨v2, hv2, hv2s⟩ := hall e2 (List.mem_cons_of_mem _ he2)
        exact ⟨v2, by rw [hoo]; exact hv2, hv2s⟩
      · intro s
        rw [hoo, hos]
        exact h3 s
    · apply ih (normalStep fr mp rv acc e) (hoo ▸ keysNodup_mapDelete _ _ h1)
        (hos ▸ keysNodup_decOpenSymbols _ _ h2) hlnd.2
      · intro e2 he2
        obtain ⟨v2, hv2, hv2s⟩ := hall e2 (List.mem_cons_of_mem _ he2)
        have hne : e.1 ≠ e2.1 := by
          intro hcon
          apply hlnd.1
          rw [hcon]
          exact List.mem_map_of_mem (fun x => x.1) he2
        exact ⟨v2, by rw [hoo, mapGet_mapDelete_ne _ _ _ hne]; exact hv2, hv2s⟩
      · intro s
        rw [hoo, hos, refcount_dec, h3 s]
        have hcount := countSym_mapDelete acc.broker.openOrders e.1 v s h1 hv
        by_cases hss : e.2.symbol = s
        · rw [if_pos hss]
          rw [if_pos (hvs.trans hss)] at hcount
          omega
        · rw [if_neg hss]
          rw [if_neg (by rw [hvs]; exact hss)] at hcount
          omega
    · apply ih (normalStep fr mp rv acc e) (hoo ▸ keysNodup_mapSet _ _ _ h1)
        (hos ▸ h2) hlnd.2
      · intro e2 he2
        obtain ⟨v2, hv2, hv2s⟩ := hall e2 (List.mem_cons_of_mem _ he2)
        have hne : e.1 ≠ e2.1 := by
          intro hcon
          apply hlnd.1
          rw [hcon]
          exact List.mem_map_of_mem (fun x => x.1) he2
        exact ⟨v2, by rw [hoo, mapGet_mapSet_ne _ _ _ _ hne]; exact hv2, hv2s⟩
      · intro s
        rw [hoo, hos]
        rw [countSym_mapSet_sameSymbol acc.broker.openOrders e.1 v st2 s h1 hv
          (by rw [hst2, hvs])]
        exact h3 s

/-- BrokerInv is preserved by a full matching pass. -/
theorem processOpenOrders_inv (b : Broker) (rows : List Row) (b2 : Broker)
    (res : MatchResult) (h : BrokerInv b)
    (hp : processOpenOrders b rows = some (b2, res)) : BrokerInv b2 := by
  obtain ⟨h1, h2, h3⟩ := h
  cases rows with
  | nil => simp [processOpenOrders] at hp
  | cons r0 rest =>
    unfold processOpenOrders at hp
    dsimp only at hp
    by_cases ho : r0.openPrice.isSome
    · rw [if_pos ho] at hp
      obtain ⟨hstop1, hstop2⟩ := stopPass_counts b.now
        (barTrigger ((r0 :: rest).map Row.toCandle)) b.openOrders
        (b.openOrders, []) h1 h1
        (fun e he => ⟨e.2, mapGet_of_mem_nodup _ _ _ h1 he, rfl⟩)
      have hm := normalPass_inv
        (fun sym => ((r0 :: rest).map Row.toCandle).find? (fun c => c.symbol = sym))
        getMatchPriceBar (fun c => some c.volume)
        (processStopOrdersBar b ((r0 :: rest).map Row.toCandle)).1
        { broker := { b with openOrders :=
            (processStopOrdersBar b ((r0 :: rest).map Row.toCandle)).1 },
          updated := [], filled := [] }
        hstop1 h2 hstop1
        (fun e he => ⟨e.2, mapGet_of_mem_nodup _ _ _ hstop1 he, rfl⟩)
        (fun s => by
          dsimp only
          rw [h3 s]
          exact congrArg (fun n : ℕ => (n : ℤ)) (hstop2 s).symm)
      have hb2 : b2 = (processNormalOrdersBar
          { b with openOrders :=
            (processStopOrdersBar b ((r0 :: rest).map Row.toCandle)).1 }
          ((r0 :: rest).map Row.toCandle)).broker := by
        have := Option.some.inj hp
        exact (congrArg Prod.fst this).symm
      rw [hb2]
      exact hm
    · rw [if_neg ho] at hp
      obtain ⟨hstop1, hstop2⟩ := stopPass_counts b.now
        (tickTrigger ((r0 :: rest).map Row.toQuote)) b.openOrders
        (b.openOrders, []) h1 h1
        (fun e he => ⟨e.2, mapGet_of_mem_nodup _ _ _ h1 he, rfl⟩)
      have hm := normalPass_inv
        (fun sym => ((r0 :: rest).map Row.toQuote).find? (fun q => q.symbol = sym))
        getMatchPriceTick (fun q => q.volume)
        (processStopOrdersTick b ((r0 :: rest).map Row.toQuote)).1
        { broker := { b with openOrders :=
            (processStopOrdersTick b ((r0 :: rest).map Row.toQuote)).1 },
          updated := [], filled := [] }
        hstop1 h2 hstop1
        (fun e he => ⟨e.2, mapGet_of_mem_nodup _ _ _ hstop1 he, rfl⟩)
        (fun s => by
          dsimp only
          rw [h3 s]
          exact congrArg (fun n : ℕ => (n : ℤ)) (hstop2 s).symm)
      have hb2 : b2 = (processNormalOrdersTick
          { b with openOrders :=
            (processStopOrdersTick b ((r0 :: rest).map Row.toQuote)).1 }
          ((r0 :: rest).map Row.toQuote)).broker := by
        have := Option.some.inj hp
        exact (congrArg Prod.fst this).symm
      rw [hb2]
      exact hm

/-! ## C2: summing the refcounts -/

theorem countSym_cons (e : String × OrderState) (oo : List (String × OrderState))
    (s : String) :
    countSym (e :: oo) s = (if e.2.symbol = s then 1 else 0) + countSym oo s := by
  unfold countSym
  rw [List.filter_cons]
  by_cases h : e.2.symbol = s
  · simp [h]
    omega
  · simp [h]

theorem sum_indicator (v : String) :
    ∀ (ks : List String), ks.Nodup →
      (ks.map (fun s => if v = s then (1 : ℕ) else 0)).sum =
        if v ∈ ks then 1 else 0 := by
  intro ks
  induction ks with
  | nil => intro _; simp
  | cons k rest ih =>
    intro hnd
    rw [List.nodup_cons] at hnd
    rw [List.map_cons, List.sum_cons, ih hnd.2]
    by_cases hv : v = k
    · have hnmem : v ∉ rest := by rw [hv]; exact hnd.1
      simp [hv, hv ▸ hnmem]
    · by_cases hm : v ∈ rest
      · simp [hv, hm]
      · have : v ∉ k :: rest := by
          intro hcon
          rcases List.mem_cons.mp hcon with h | h
          · exact hv h
          · exact hm h
        simp [hv, hm, this]

theorem sum_map_add_nat (ks : List String) (f g : String → ℕ) :
    (ks.map (fun s => f s + g s)).sum = (ks.map f).sum + (ks.map g).sum := by
  induction ks with
  | nil => rfl
  | cons k rest ih =>
    simp only [List.map_cons, List.sum_cons, ih]
    omega

theorem sum_countSym_keys (oo : List (String × OrderState)) :
    ∀ (ks : List String), ks.Nodup →
      (ks.map (fun s => countSym oo s)).sum =
        (oo.filter (fun e => e.2.symbol ∈ ks)).length := by
  induction oo with
  | nil => intro ks _; simp [countSym]
  | cons e rest ih =>
    intro ks hnd
    have hmap : ks.map (fun s => countSym (e :: rest) s) =
        ks.map (fun s => (if e.2.symbol = s then 1 else 0) + countSym rest s) :=
      List.map_congr_left (fun s _ => countSym_cons e rest s)
    rw [hmap, sum_map_add_nat, ih ks hnd, sum_indicator e.2.symbol ks hnd,
      List.filter_cons]
    by_cases hm : e.2.symbol ∈ ks
    · simp only [hm, if_true, reduceIte]
      simp
      omega
    · simp only [hm, if_false]
      simp [hm]

theorem values_sum_eq (m : List (String × ℤ)) (h : KeysNodup m) :
    (m.map (fun e => e.2)).sum =
      ((m.map (fun e => e.1)).map (fun s => refcount m s)).sum := by
  induction m with
  | nil => rfl
  | cons e rest ih =>
    unfold KeysNodup at h
    rw [List.map_cons, List.nodup_cons] at h
    rw [List.map_cons, List.sum_cons, List.map_cons, List.map_cons,
      List.sum_cons]
    have hhead : refcount (e :: rest) e.1 = e.2 := by
      unfold refcount
      rw [mapGet_cons, if_pos rfl]
      rfl
    have htail : (rest.map (fun x => x.1)).map (fun s => refcount (e :: rest) s) =
        (rest.map (fun x => x.1)).map (fun s => refcount rest s) := by
      apply List.map_congr_left
      intro s hs
      have hne : ¬ (e.1 = s) := by
        intro hcon
        apply h.1
        rw [hcon]
        exact hs
      unfold refcount
      rw [mapGet_cons, if_neg hne]
    rw [hhead, htail, ih h.2]

theorem sum_cast_map (ks : List String) (g : String → ℕ) :
    (ks.map (fun s => ((g s : ℕ) : ℤ))).sum = (((ks.map g).sum : ℕ) : ℤ) := by
  induction ks with
  | nil => rfl
  | cons k rest ih =>
    rw [List.map_cons, List.sum_cons, ih, List.map_cons, List.sum_cons]
    push_cast
    ring

/-- Under the invariant, the openSymbols values sum to the number of open
orders. -/
theorem inv_sum (b : Broker) (h : BrokerInv b) :
    (b.openSymbols.map (fun e => e.2)).sum = (b.openOrders.length : ℤ) := by
  obtain ⟨h1, h2, h3⟩ := h
  rw [values_sum_eq b.openSymbols h2]
  have hcongr : (b.openSymbols.map (fun e => e.1)).map
        (fun s => refcount b.openSymbols s) =
      (b.openSymbols.map (fun e => e.1)).map
        (fun s => ((countSym b.openOrders s : ℕ) : ℤ)) :=
    List.map_congr_left (fun s _ => h3 s)
  rw [hcongr, sum_cast_map, sum_countSym_keys b.openOrders _ h2]
  have hcov : ∀ e ∈ b.openOrders, e.2.symbol ∈ b.openSymbols.map (fun x => x.1) := by
    intro e he
    have hc : 1 ≤ countSym b.openOrders e.2.symbol := by
      unfold countSym
      have hmem : e ∈ b.openOrders.filter (fun e2 => e2.2.symbol = e.2.symbol) :=
        List.mem_filter.mpr ⟨he, by simp⟩
      exact List.length_pos.mpr (List.ne_nil_of_mem hmem)
    have hr : 1 ≤ refcount b.openSymbols e.2.symbol := by
      rw [h3 e.2.symbol]
      exact_mod_cast hc
    have hsome : ∃ c, mapGet b.openSymbols e.2.symbol = some c := by
      cases hg : mapGet b.openSymbols e.2.symbol with
      | none =>
        exfalso
        unfold refcount at hr
        rw [hg] at hr
        simp at hr
      | some c => exact ⟨c, rfl⟩
    obtain ⟨c, hcget⟩ := hsome
    unfold mapGet at hcget
    cases hfind : b.openSymbols.find? (fun e2 => e2.1 = e.2.symbol) with
    | none => rw [hfind] at hcget; simp at hcget
    | some q =>
      have hqmem := List.mem_of_find?_eq_some hfind
      have hq1 : q.1 = e.2.symbol := by
        have := List.find?_some hfind
        simpa using this
      rw [← hq1]
      exact List.mem_map_of_mem (fun x => x.1) hqmem
  have hfilter : b.openOrders.filter
      (fun e => e.2.symbol ∈ b.openSymbols.map (fun x => x.1)) = b.openOrders :=
    List.filter_eq_self.mpr (fun e he => by simpa using hcov e he)
  rw [hfilter]

/-! ## C2: reachable broker states -/

/-- Broker states reachable from construction through the public
operations. -/
inductive Reachable : Broker → Prop
  | init (cfg : BacktestConfig) : Reachable (mkBroker cfg)
  | setTime (b : Broker) (t : ℤ) : Reachable b → Reachable { b with now := t }
  | submit (b : Broker) (orders : List Order) : Reachable b →
      Reachable (submitOrder b orders).1
  | amend (b : Broker) (updates : List PartialOrder) : Reachable b →
      Reachable (amendOrder b updates).1
  | cancel (b : Broker) (ids : List String) : Reachable b →
      Reachable (cancelOrders b ids).1
  | cancelAll (b : Broker) : Reachable b → Reachable (cancelAllOrders b).1
  | process (b : Broker) (rows : List Row) (b2 : Broker) (res : MatchResult) :
      Reachable b → processOpenOrders b rows = some (b2, res) → Reachable b2

theorem reachable_inv (b : Broker) (h : Reachable b) : BrokerInv b := by
  induction h with
  | init cfg => exact mkBroker_inv cfg
  | setTime b t _ ih => exact ⟨ih.1, ih.2.1, ih.2.2⟩
  | submit b orders _ ih => exact submitOrder_fst_inv b orders ih
  | amend b updates _ ih => exact amendOrder_fst_inv b updates ih
  | cancel b ids _ ih => exact cancelOrders_fst_inv b ids ih
  | cancelAll b _ ih => exact cancelAllOrders_inv b ih
  | process b rows b2 res _ hp ih => exact processOpenOrders_inv b rows b2 res ih hp

/-- C2: for every broker state reachable by any sequence of submitOrder,
amendOrder, cancelOrder, cancelAllOrders and processOpenOrders calls, the
openSymbols refcount of every symbol equals the number of openOrders
entries with that symbol, and consequently the refcounts sum to the size
of openOrders. -/
theorem claimC2_refcount_invariant :
    ∀ (b : Broker), Reachable b →
      (∀ s, refcount b.openSymbols s = (countSym b.openOrders s : ℤ)) ∧
      (b.openSymbols.map (fun e => e.2)).sum = (b.openOrders.length : ℤ) := by
  intro b h
  exact ⟨(reachable_inv b h).2.2, inv_sum b (reachable_inv b h)⟩

/-- C2 witness: after one submit on a fresh broker the refcount of the
symbol of the order matches the count and the refcounts sum to the map
size. -/
theorem claimC2_witness :
    refcount (submitOrder (mkBroker cfg0) [ord1]).1.openSymbols ord1.symbol =
      (countSym (submitOrder (mkBroker cfg0) [ord1]).1.openOrders ord1.symbol : ℤ) ∧
    ((submitOrder (mkBroker cfg0) [ord1]).1.openSymbols.map (fun e => e.2)).sum =
      ((submitOrder (mkBroker cfg0) [ord1]).1.openOrders.length : ℤ) :=
  ⟨(claimC2_refcount_invariant _
      (Reachable.submit _ _ (Reachable.init cfg0))).1 ord1.symbol,
    (claimC2_refcount_invariant _
      (Reachable.submit _ _ (Reachable.init cfg0))).2⟩

end TradingSbt
